import Mathlib

/-!
# Verification of the quiz extraction-and-consolidation pipeline

Shallow embedding of the core of `scripts/generate-quiz-json.js`,
`scripts/build-quizz-sets.js` and `seeder.ts`: the markdown question parser,
the stable-identifier generator (SHA-256 based), the attachment-URL
normalizers, and the per-directory consolidator.  All definitions are
executable and translated from the JavaScript/TypeScript source; modelling
notes:

* JavaScript strings are modelled as Lean `String` (lists of characters);
  `String.prototype.trim` and the `\s` regex class use the JS whitespace set.
* `path.posix.join` / `path.posix.normalize` are modelled segment-wise,
  which is the documented semantics of Node's implementation.
* `path.sep` is `/` (the scripts run on a POSIX host).
* Case-insensitive regex matching is modelled by ASCII lower-casing, which
  agrees with JS on the ASCII inputs these patterns inspect.
* I/O (file reading, the clock, `crypto.randomUUID`) is passed in as
  explicit parameters.
-/

/-- The JavaScript whitespace set: what `\s` matches and `trim` removes. -/
def jsIsWs (c : Char) : Bool :=
  c = ' ' || c = '\t' || c = '\n' || c = '\x0b' || c = '\x0c' || c = '\r' ||
  c = '\u00A0' || c = '\u1680' ||
  ('\u2000' ≤ c && c ≤ '\u200A') ||
  c = '\u2028' || c = '\u2029' || c = '\u202F' || c = '\u205F' ||
  c = '\u3000' || c = '\uFEFF'

/-- Remove leading and trailing JS whitespace from a character list. -/
def listTrim (l : List Char) : List Char :=
  ((l.dropWhile jsIsWs).reverse.dropWhile jsIsWs).reverse

/-- `String.prototype.trim`. -/
def jsTrim (s : String) : String :=
  ⟨listTrim s.data⟩

/-- ASCII lower-casing of one character (models JS case-insensitive matching
on the ASCII characters the patterns of this pipeline inspect). -/
def lowChar (c : Char) : Char :=
  if 'A' ≤ c && c ≤ 'Z' then Char.ofNat (c.toNat + 32) else c

/-- ASCII lower-casing of a string. -/
def lowStr (s : String) : String :=
  ⟨s.data.map lowChar⟩

/-- Boolean string prefix test (JS `String.prototype.startsWith`). -/
def startsWithS (s pre : String) : Bool :=
  pre.data.isPrefixOf s.data

/-- Split a character list on `/` (segments of a POSIX path). -/
def splitCh : List Char → List (List Char)
  | [] => [[]]
  | ch :: rest =>
    match splitCh rest with
    | [] => [[]]
    | s :: ss => if ch = '/' then [] :: s :: ss else (ch :: s) :: ss

/-- Join segments with `/` separators (inverse of `splitCh`). -/
def joinSegs : List (List Char) → List Char
  | [] => []
  | [s] => s
  | s :: rest => s ++ '/' :: joinSegs rest

/-- One step of Node's `normalizeString` segment loop: empty and `.`
segments are dropped, `..` pops a previous real segment (or is kept /
dropped at the root depending on `allow`), anything else is pushed. -/
def normStep (allow : Bool) (stack : List (List Char)) (seg : List Char) :
    List (List Char) :=
  if seg = [] || seg = ['.'] then stack
  else if seg = ['.', '.'] then
    match stack.getLast? with
    | some t => if t ≠ ['.', '.'] then stack.dropLast
                else if allow then stack ++ [seg] else stack
    | none => if allow then stack ++ [seg] else stack
  else stack ++ [seg]

/-- Node's `normalizeString`: resolve `.`/`..`/empty segments. -/
def normStack (allow : Bool) (stack : List (List Char))
    (segs : List (List Char)) : List (List Char) :=
  segs.foldl (normStep allow) stack

/-- Node's `path.posix.normalize`, on characters. -/
def posixNormalizeCh (p : List Char) : List Char :=
  if p = [] then ['.'] else
  let isAbs := p.head? = some '/'
  let trailing := p.getLast? = some '/'
  let res := joinSegs (normStack (!isAbs) [] (splitCh p))
  if res = [] then
    if isAbs then ['/'] else if trailing then ['.', '/'] else ['.']
  else
    (if isAbs then '/' :: res else res) ++ (if trailing then ['/'] else [])

/-- Node's `path.posix.join`: drop empty arguments, join with `/`, then
normalize; with nothing left the result is `.`. -/
def posixJoin (parts : List String) : String :=
  let ne := (parts.map String.data).filter (fun l => l ≠ [])
  if ne = [] then "." else ⟨posixNormalizeCh (joinSegs ne)⟩

/-! ## SHA-256 (`crypto.createHash('sha256')`) and the stable identifier -/

/-- 32-bit modulus. -/
def w32 : Nat := 4294967296

/-- Addition mod 2^32. -/
def add32 (a b : Nat) : Nat := (a + b) % w32

/-- Bitwise complement on 32-bit words. -/
def not32 (n : Nat) : Nat := Nat.xor n 4294967295

/-- Right rotation of a 32-bit word. -/
def rotr32 (k n : Nat) : Nat :=
  Nat.lor (Nat.shiftRight n k) (Nat.shiftLeft n (32 - k) % w32)

/-- SHA-256 small sigma 0. -/
def ssig0 (x : Nat) : Nat :=
  Nat.xor (Nat.xor (rotr32 7 x) (rotr32 18 x)) (Nat.shiftRight x 3)

/-- SHA-256 small sigma 1. -/
def ssig1 (x : Nat) : Nat :=
  Nat.xor (Nat.xor (rotr32 17 x) (rotr32 19 x)) (Nat.shiftRight x 10)

/-- SHA-256 big sigma 0. -/
def bsig0 (x : Nat) : Nat :=
  Nat.xor (Nat.xor (rotr32 2 x) (rotr32 13 x)) (rotr32 22 x)

/-- SHA-256 big sigma 1. -/
def bsig1 (x : Nat) : Nat :=
  Nat.xor (Nat.xor (rotr32 6 x) (rotr32 11 x)) (rotr32 25 x)

/-- The 64 SHA-256 round constants. -/
def sha256K : List Nat :=
  [1116352408, 1899447441, 3049323471, 3921009573, 961987163, 1508970993,
   2453635748, 2870763221, 3624381080, 310598401, 607225278, 1426881987,
   1925078388, 2162078206, 2614888103, 3248222580, 3835390401, 4022224774,
   264347078, 604807628, 770255983, 1249150122, 1555081692, 1996064986,
   2554220882, 2821834349, 2952996808, 3210313671, 3336571891, 3584528711,
   113926993, 338241895, 666307205, 773529912, 1294757372, 1396182291,
   1695183700, 1986661051, 2177026350, 2456956037, 2730485921, 2820302411,
   3259730800, 3345764771, 3516065817, 3600352804, 4094571909, 275423344,
   430227734, 506948616, 659060556, 883997877, 958139571, 1322822218,
   1537002063, 1747873779, 1955562222, 2024104815, 2227730452, 2361852424,
   2428436474, 2756734187, 3204031479, 3329325298]

/-- The eight 32-bit words of SHA-256 state. -/
structure Sha2State where
  s0 : Nat
  s1 : Nat
  s2 : Nat
  s3 : Nat
  s4 : Nat
  s5 : Nat
  s6 : Nat
  s7 : Nat
deriving Repr, DecidableEq

/-- SHA-256 initial hash value. -/
def sha256Init : Sha2State :=
  ⟨1779033703, 3144134277, 1013904242, 2773480762,
   1359893119, 2600822924, 528734635, 1541459225⟩

/-- One SHA-256 compression round over the working variables. -/
def sha256Round (st : Sha2State) (kw : Nat × Nat) : Sha2State :=
  let ch := Nat.xor (Nat.land st.s4 st.s5) (Nat.land (not32 st.s4) st.s6)
  let t1 := (st.s7 + bsig1 st.s4 + ch + kw.1 + kw.2) % w32
  let maj := Nat.xor (Nat.xor (Nat.land st.s0 st.s1) (Nat.land st.s0 st.s2))
      (Nat.land st.s1 st.s2)
  let t2 := (bsig0 st.s0 + maj) % w32
  ⟨(t1 + t2) % w32, st.s0, st.s1, st.s2, (st.s3 + t1) % w32, st.s4, st.s5, st.s6⟩

/-- Pack bytes into 32-bit big-endian words. -/
def beWords : List Nat → List Nat
  | b0 :: b1 :: b2 :: b3 :: rest =>
    (((b0 * 256 + b1) * 256 + b2) * 256 + b3) :: beWords rest
  | _ => []

/-- Extend the 16-word schedule with `fuel` further words. -/
def extendW (w : List Nat) : Nat → List Nat
  | 0 => w
  | fuel + 1 =>
    let n := w.length
    let nw := (w.getD (n - 16) 0 + ssig0 (w.getD (n - 15) 0) +
        w.getD (n - 7) 0 + ssig1 (w.getD (n - 2) 0)) % w32
    extendW (w ++ [nw]) fuel

/-- Process one 64-byte block. -/
def sha256Block (st : Sha2State) (block : List Nat) : Sha2State :=
  let w := extendW (beWords block) 48
  let r := (sha256K.zip w).foldl sha256Round st
  ⟨add32 st.s0 r.s0, add32 st.s1 r.s1, add32 st.s2 r.s2, add32 st.s3 r.s3,
   add32 st.s4 r.s4, add32 st.s5 r.s5, add32 st.s6 r.s6, add32 st.s7 r.s7⟩

/-- The 8-byte big-endian encoding of a (bit-)length. -/
def beBytes8 (n : Nat) : List Nat :=
  [n / 72057594037927936 % 256, n / 281474976710656 % 256,
   n / 1099511627776 % 256, n / 4294967296 % 256,
   n / 16777216 % 256, n / 65536 % 256, n / 256 % 256, n % 256]

/-- SHA-256 padding: `0x80`, zeros to 56 mod 64, then the 64-bit bit length. -/
def sha256Pad (msg : List Nat) : List Nat :=
  let len := msg.length
  let z := (56 + 64 - (len + 1) % 64) % 64
  msg ++ [128] ++ List.replicate z 0 ++ beBytes8 (8 * len)

/-- Split a padded message into 64-byte blocks. -/
def chunk64 : List Nat → List (List Nat)
  | [] => []
  | x :: xs => (x :: xs).take 64 :: chunk64 ((x :: xs).drop 64)
termination_by l => l.length
decreasing_by
  simp only [List.length_drop, List.length_cons]
  omega

/-- The four big-endian bytes of a 32-bit word. -/
def wordBytes (n : Nat) : List Nat :=
  [n / 16777216 % 256, n / 65536 % 256, n / 256 % 256, n % 256]

/-- SHA-256 of a byte sequence, as 32 digest bytes. -/
def sha256 (msg : List Nat) : List Nat :=
  let st := (chunk64 (sha256Pad msg)).foldl sha256Block sha256Init
  wordBytes st.s0 ++ wordBytes st.s1 ++ wordBytes st.s2 ++ wordBytes st.s3 ++
  wordBytes st.s4 ++ wordBytes st.s5 ++ wordBytes st.s6 ++ wordBytes st.s7

/-- Lower-case hex digit for a value below 16. -/
def hexChar (n : Nat) : Char :=
  "0123456789abcdef".data.getD n '0'

/-- Lower-case hex rendering of a byte list (`digest('hex')`). -/
def hexStr (bytes : List Nat) : String :=
  ⟨(bytes.map (fun b => [hexChar (b / 16), hexChar (b % 16)])).flatten⟩

/-- UTF-8 bytes of one character (`hash.update` encodes strings as UTF-8). -/
def utf8Char (c : Char) : List Nat :=
  let n := c.toNat
  if n < 128 then [n]
  else if n < 2048 then [192 + n / 64, 128 + n % 64]
  else if n < 65536 then [224 + n / 4096, 128 + n / 64 % 64, 128 + n % 64]
  else [240 + n / 262144, 128 + n / 4096 % 64, 128 + n / 64 % 64, 128 + n % 64]

/-- UTF-8 bytes of a string. -/
def utf8Bytes (s : String) : List Nat :=
  (s.data.map utf8Char).flatten

/-- The byte stream `stableId` feeds to the hash: each part (already passed
through `String(part || '')`, which is the identity on strings) followed by
the `'|'` update. -/
def encodeParts (parts : List String) : String :=
  String.join (parts.map (fun p => p ++ "|"))

/-- `stableId(...parts)` from `generate-quiz-json.js`: the first 24 hex
characters of the SHA-256 of the `part + '|'` stream. -/
def stableId (parts : List String) : String :=
  ⟨(hexStr (sha256 (utf8Bytes (encodeParts parts)))).data.take 24⟩

/-- `String(part || '')` applied to the numeric question index: index `0` is
falsy in JavaScript and stringifies to the empty string. -/
def numPart (n : Nat) : String :=
  if n = 0 then "" else toString n

/-! ## Markdown question parser (`generate-quiz-json.js`) -/

/-- Dropping a matched run never lengthens a list. -/
theorem lenDropWhileLe {α : Type} (p : α → Bool) (l : List α) :
    (l.dropWhile p).length ≤ l.length := by
  induction l with
  | nil => simp [List.dropWhile]
  | cons c rest ih =>
    by_cases hp : p c
    · simp only [List.dropWhile, hp]
      exact Nat.le_succ_of_le ih
    · simp only [List.dropWhile, hp]
      simp

/-- Try to match the tail of `/!\[[^\]]*]\(([^)]+)\)/` right after a `!`:
`[`, alt text up to the first `]`, `](`, a nonempty capture up to the first
`)`, `)`.  Returns the capture and the characters after the match. -/
def matchImgAt (l : List Char) : Option (List Char × List Char) :=
  match l with
  | '[' :: r =>
    match r.dropWhile (fun c => c ≠ ']') with
    | ']' :: '(' :: r2 =>
      match r2.dropWhile (fun c => c ≠ ')') with
      | ')' :: r4 =>
        if r2.takeWhile (fun c => c ≠ ')') = [] then none
        else some (r2.takeWhile (fun c => c ≠ ')'), r4)
      | _ => none
    | _ => none
  | _ => none

/-- A successful image match consumes at least one character. -/
theorem matchImgAt_length {l cap rem : List Char}
    (h : matchImgAt l = some (cap, rem)) : rem.length < l.length := by
  unfold matchImgAt at h
  split at h
  case _ r =>
    split at h
    case _ r2 heq =>
      split at h
      case _ r4 heq2 =>
        split at h
        · exact absurd h (by simp)
        · have h1 : r2.length ≤ 2 + r2.length := by omega
          have h2 : (']' :: '(' :: r2).length ≤ r.length := by
            rw [← heq]; exact lenDropWhileLe _ r
          have h3 : (')' :: r4).length ≤ r2.length := by
            rw [← heq2]; exact lenDropWhileLe _ r2
          simp only [List.length_cons] at h2 h3
          have : rem = r4 := by
            have := h
            simp only [Option.some.injEq, Prod.mk.injEq] at this
            exact this.2.symm
          subst this
          simp only [List.length_cons]
          omega
      case _ => exact absurd h (by simp)
    case _ => exact absurd h (by simp)
  case _ => exact absurd h (by simp)

/-- The `matchAll(/!\[[^\]]*]\(([^)]+)\)/g)` scan: at each position, a match
is taken (and the scan resumes after it) or the scan advances one character.
The fuel only bounds the recursion; every step strictly shrinks the input
(`matchImgAt_length`), so any fuel above the input length is enough, which
`imgScanF_congr` below makes precise. -/
def imgScanF : Nat → List Char → List (List Char)
  | 0, _ => []
  | _, [] => []
  | fuel + 1, c :: rest =>
    if c = '!' then
      match matchImgAt rest with
      | some (cap, rem) => cap :: imgScanF fuel rem
      | none => imgScanF fuel rest
    else imgScanF fuel rest

/-- The image scan of a whole character list. -/
def imgScan (l : List Char) : List (List Char) :=
  imgScanF (l.length + 1) l

/-- The image scan is fuel-insensitive once the fuel exceeds the length. -/
theorem imgScanF_congr :
    ∀ (f g : Nat) (l : List Char), l.length < f → l.length < g →
      imgScanF f l = imgScanF g l := by
  intro f
  induction f with
  | zero => intro g l hf _; omega
  | succ f ih =>
    intro g l hf hg
    match g, l with
    | 0, l => omega
    | g + 1, [] => rfl
    | g + 1, c :: rest =>
      simp only [List.length_cons] at hf hg
      by_cases hc : c = '!'
      · subst hc
        cases hm : matchImgAt rest with
        | some pr =>
          obtain ⟨cap, rem⟩ := pr
          have hlt := matchImgAt_length hm
          simp only [imgScanF, if_pos rfl, hm]
          rw [ih g rem (by omega) (by omega)]
          simp
        | none =>
          simp only [imgScanF, if_pos rfl, hm]
          rw [ih g rest (by omega) (by omega)]
      · simp only [imgScanF, if_neg hc]
        exact ih g rest (by omega) (by omega)

/-- All inline image references of one line, in document order. -/
def imageRefs (line : String) : List String :=
  (imgScan line.data).map (fun l => (⟨l⟩ : String))

/-- The option pattern `/^\s*[-*+]\s*\[( |x|X)\]\s*(.+)$/`: checkbox marker
and raw captured text.  When everything after `]` is whitespace, backtracking
hands the final whitespace character to `(.+)` (so the captured text trims to
the empty string); with nothing at all after `]` there is no match. -/
def optionMatch (line : String) : Option (Char × String) :=
  match line.data.dropWhile jsIsWs with
  | m :: rest =>
    if m = '-' || m = '*' || m = '+' then
      match rest.dropWhile jsIsWs with
      | '[' :: mk :: ']' :: rest2 =>
        if mk = ' ' || mk = 'x' || mk = 'X' then
          match rest2.dropWhile jsIsWs with
          | [] =>
            match rest2.getLast? with
            | some c => some (mk, (⟨[c]⟩ : String))
            | none => none
          | l3 => some (mk, ⟨l3⟩)
        else none
      | _ => none
    else none
  | [] => none

/-- The letter class of `stripQuestionNumber`: `[A-Za-zÀ-ÿ?¿¡']`. -/
def isLetterClass (c : Char) : Bool :=
  ('A' ≤ c && c ≤ 'Z') || ('a' ≤ c && c ≤ 'z') ||
  ('À' ≤ c && c ≤ 'ÿ') || c = '?' || c = '¿' || c = '¡' || c = '\''

/-- ASCII digit. -/
def isDigitCh (c : Char) : Bool := '0' ≤ c && c ≤ '9'

/-- `stripQuestionNumber`: drop a leading label such as `Q1.` using
`/^(?:[A-Za-zÀ-ÿ?¿¡']*\s*)?\d+\.?\s*(.*)$/`; keep the text when the pattern
fails or captures nothing. -/
def stripQuestionNumber (text : String) : String :=
  let l2 := (text.data.dropWhile isLetterClass).dropWhile jsIsWs
  match l2 with
  | c :: _ =>
    if isDigitCh c then
      let l3 := l2.dropWhile isDigitCh
      let l4 := match l3 with
        | '.' :: t => t
        | _ => l3
      let l5 := l4.dropWhile jsIsWs
      if l5 = [] then jsTrim text else jsTrim ⟨l5⟩
    else jsTrim text
  | [] => jsTrim text

/-- Match `/^hint[:\-]?\s*/i` and return what the replacement keeps. -/
def hintRest (l : List Char) : Option (List Char) :=
  match l with
  | a :: b :: c :: d :: rest =>
    if lowChar a = 'h' && lowChar b = 'i' && lowChar c = 'n' && lowChar d = 't'
    then
      let rest2 := match rest with
        | e :: r2 => if e = ':' || e = '-' then r2 else rest
        | [] => rest
      some (rest2.dropWhile jsIsWs)
    else none
  | _ => none

/-- An attachment record (`id`, `url`, fixed `type`). -/
structure Attachment where
  id : String
  url : String
  type : String
deriving DecidableEq, Repr

/-- A parsed question record, mirroring the generated JSON. -/
structure ParsedQuestion where
  id : String
  question : String
  answer : Option String
  explanation : Option String
  hint : Option String
  correctAnswer : List String
  options : List String
  nature : String
  attachments : List Attachment
deriving DecidableEq, Repr

/-- A raw question block: `####` heading (label stripped) and body lines. -/
structure QuestionBlock where
  heading : String
  body : List String
deriving DecidableEq, Repr

/-- `s || null`. -/
def jsOrNone (s : String) : Option String :=
  if s = "" then none else some s

/-- The attachment record built for one raw image reference of question
`questionIndex` of quiz `quizId` (note the JS falsy-index quirk captured by
`numPart`). -/
def attOf (quizId : String) (questionIndex : Nat) (ref : String) :
    Attachment :=
  { id := stableId ["attachment", quizId, numPart questionIndex, ref],
    url := ref, type := "question" }

/-- The per-line state of `parseQuestionBlock`. -/
structure QBState where
  insideOptions : Bool
  insideCode : Bool
  questionLines : List String
  trailingLines : List String
  options : List String
  correctAnswer : List String
  attachments : List Attachment
deriving DecidableEq, Repr

/-- One body line of a question block: toggle the code fence, collect image
attachments, then either capture an option line (outside code) or append the
line to the question text / trailing text. -/
def qbStep (quizId : String) (questionIndex : Nat) (st : QBState)
    (line : String) : QBState :=
  let insideCode :=
    if startsWithS (jsTrim line) "```" then !st.insideCode else st.insideCode
  let attachments :=
    st.attachments ++ (imageRefs line).map (attOf quizId questionIndex)
  let fallThrough : QBState :=
    if !st.insideOptions then
      { st with
        insideCode := insideCode, attachments := attachments,
        questionLines := st.questionLines ++ [line] }
    else
      { st with
        insideCode := insideCode, attachments := attachments,
        trailingLines := st.trailingLines ++ [line] }
  match optionMatch line with
  | some mt =>
    if !insideCode then
      let t := jsTrim mt.2
      { st with
        insideCode := insideCode, attachments := attachments,
        insideOptions := true, options := st.options ++ [t],
        correctAnswer :=
          if mt.1 = 'x' || mt.1 = 'X' then st.correctAnswer ++ [t]
          else st.correctAnswer }
    else fallThrough
  | none => fallThrough

/-- Split trailing lines into hint lines (label stripped) and explanation
lines, skipping blank lines. -/
def classifyTrailing (trailing : List String) : List String × List String :=
  trailing.foldl (fun acc line =>
    let trimmed := jsTrim line
    if trimmed = "" then acc
    else
      match hintRest trimmed.data with
      | some r => (acc.1 ++ [(⟨r⟩ : String)], acc.2)
      | none => (acc.1, acc.2 ++ [trimmed])) ([], [])

/-- `parseQuestionBlock` from `generate-quiz-json.js`. -/
def parseQuestionBlock (block : QuestionBlock) (quizId : String)
    (questionIndex : Nat) : ParsedQuestion :=
  let st := block.body.foldl (qbStep quizId questionIndex)
    ⟨false, false, [], [], [], [], []⟩
  let baseQuestion := stripQuestionNumber block.heading
  let hx := classifyTrailing st.trailingLines
  let extraQuestionText := jsTrim (String.intercalate "\n" st.questionLines)
  let questionTextParts :=
    if extraQuestionText = "" then [baseQuestion]
    else [baseQuestion, extraQuestionText]
  { id := stableId ["question", quizId, numPart questionIndex, block.heading],
    question := jsTrim (String.intercalate "\n" questionTextParts),
    answer := jsOrNone (String.intercalate "; " st.correctAnswer),
    explanation := jsOrNone (jsTrim (String.intercalate "\n" hx.2)),
    hint := jsOrNone (jsTrim (String.intercalate "\n" hx.1)),
    correctAnswer := st.correctAnswer,
    options := st.options,
    nature := if st.correctAnswer.length > 1 then "ChooseMany" else "ChooseOne",
    attachments := st.attachments }

/-- Split on `/\r?\n/`: a line ends at `\n`, an immediately preceding `\r`
is consumed with it; a lone `\r` stays in the line. -/
def splitLinesCh : List Char → List (List Char)
  | [] => [[]]
  | '\r' :: '\n' :: rest => [] :: splitLinesCh rest
  | '\n' :: rest => [] :: splitLinesCh rest
  | c :: rest =>
    match splitLinesCh rest with
    | [] => [[c]]
    | s :: ss => (c :: s) :: ss

/-- The lines of a document (`content.split(/\r?\n/)`). -/
def splitLines (content : String) : List String :=
  (splitLinesCh content.data).map (fun l => (⟨l⟩ : String))

/-- Collapse every whitespace run to a single space (`replace(/\s+/g, ' ')`);
the flag records whether the previous character belonged to a run already
replaced. -/
def collapseWsGo : Bool → List Char → List Char
  | _, [] => []
  | prev, c :: rest =>
    if jsIsWs c then
      if prev then collapseWsGo true rest
      else ' ' :: collapseWsGo true rest
    else c :: collapseWsGo false rest

/-- Collapse every whitespace run of a list to a single space. -/
def collapseWs (l : List Char) : List Char :=
  collapseWsGo false l

/-- Last `/`-segment of a path (`path.basename` for the paths this pipeline
builds, which never end in a separator). -/
def baseName (p : String) : String :=
  match (splitCh p.data).getLast? with
  | some l => ⟨l⟩
  | none => p

/-- `path.basename(p, ext)`: the base name minus a trailing `ext` when `ext`
is a proper suffix. -/
def baseNameExt (p ext : String) : String :=
  let b := baseName p
  if ext.data.isSuffixOf b.data && b ≠ ext then
    ⟨b.data.take (b.data.length - ext.data.length)⟩
  else b

/-- Try the case-insensitive pattern `-quiz[-.]([a-z]{2}(?:-[A-Za-z]{2})?)`
at the head of `l`, returning the capture as matched. -/
def langMatchAt (l : List Char) : Option (List Char) :=
  match l with
  | a :: b :: c :: d :: e :: f :: x :: y :: rest =>
    if a = '-' && lowChar b = 'q' && lowChar c = 'u' && lowChar d = 'i' &&
       lowChar e = 'z' && (f = '-' || f = '.') && x.isAlpha && y.isAlpha then
      match rest with
      | '-' :: u :: v :: _ =>
        if u.isAlpha && v.isAlpha then some [x, y, '-', u, v] else some [x, y]
      | _ => some [x, y]
    else none
  | _ => none

/-- Leftmost match of the language-suffix pattern anywhere in the string. -/
def langScan : List Char → Option (List Char)
  | [] => none
  | c :: rest =>
    match langMatchAt (c :: rest) with
    | some cap => some cap
    | none => langScan rest

/-- `deriveLanguageFromFilename`: language code from the file name, `en`
when absent. -/
def deriveLanguageFromFilename (filePath : String) : String :=
  match langScan (baseName filePath).data with
  | some cap => ⟨cap⟩
  | none => "en"

/-- Split a character list wherever `p` holds (JS `split(/[-_]/)` style). -/
def splitOnPred (p : Char → Bool) : List Char → List (List Char)
  | [] => [[]]
  | ch :: rest =>
    match splitOnPred p rest with
    | [] => [[]]
    | s :: ss => if p ch then [] :: s :: ss else (ch :: s) :: ss

/-- ASCII upper-casing of one character. -/
def upChar (c : Char) : Char :=
  if 'a' ≤ c && c ≤ 'z' then Char.ofNat (c.toNat - 32) else c

/-- `part.charAt(0).toUpperCase() + part.slice(1)`. -/
def capitalizeJs (s : String) : String :=
  match s.data with
  | [] => ""
  | c :: rest => ⟨upChar c :: rest⟩

/-- `buildTitleFromPath`: first path segment, `-`/`_` turned into spaces,
each word capitalized. -/
def buildTitleFromPath (sourcePath : String) : String :=
  let folder : List Char := (splitCh sourcePath.data).headD []
  String.intercalate " "
    ((splitOnPred (fun c => c = '-' || c = '_') folder).map
      (fun part => capitalizeJs ⟨part⟩))

/-- The parser-side quiz record. -/
structure QuizRecord where
  id : String
  title : String
  description : String
  createdById : String
  questions : List ParsedQuestion
deriving DecidableEq, Repr

/-- The parser-side metadata record. -/
structure MetaRecord where
  source : String
  language : String
  generatedAt : String
  warnings : List String
deriving DecidableEq, Repr

/-- One generated JSON document. -/
structure QuizPayload where
  quizz : QuizRecord
  meta : MetaRecord
deriving DecidableEq, Repr

/-- The line-scanner state of `parseQuizMarkdown`.  `title` is `none` for
JS `null`; a captured title may still be the empty string, which stays falsy. -/
structure PMState where
  title : Option String
  introLines : List String
  blocks : List QuestionBlock
  current : Option QuestionBlock
  inQuestions : Bool
deriving DecidableEq, Repr

/-- Strip a heading label: drop the `n` marker characters, then the
whitespace the `^#+\s*` replacement eats, then trim. -/
def headingStrip (n : Nat) (line : String) : String :=
  jsTrim ⟨(line.data.drop n).dropWhile jsIsWs⟩

/-- JS `!title`. -/
def titleFalsy : Option String → Bool
  | none => true
  | some s => s = ""

/-- One line of `parseQuizMarkdown`'s scan. -/
def pmStep (st : PMState) (line : String) : PMState :=
  if titleFalsy st.title && startsWithS line "## " then
    { st with title := some (headingStrip 2 line) }
  else if startsWithS line "#### " then
    { st with
      inQuestions := true,
      blocks := st.blocks ++ (match st.current with
        | some b => [b]
        | none => []),
      current := some ⟨headingStrip 4 line, []⟩ }
  else if !st.inQuestions then
    { st with introLines := st.introLines ++ [line] }
  else
    match st.current with
    | some b => { st with current := some ⟨b.heading, b.body ++ [line]⟩ }
    | none => st

/-- The warning recorded for a question with no marked answers. -/
def msgNoAnswers (n : Nat) : String :=
  "Question " ++ toString n ++ " has no marked correct answers"

/-- The warning recorded for a question with no options. -/
def msgNoOptions (n : Nat) : String :=
  "Question " ++ toString n ++ " has no options"

/-- One step of the questions/warnings accumulation of `parseQuizMarkdown`:
parse the block, then push the missing-answers and missing-options warnings
(in that order, as the code does). -/
def qwStep (quizId : String) (acc : List ParsedQuestion × List String)
    (p : Nat × QuestionBlock) : List ParsedQuestion × List String :=
  let q := parseQuestionBlock p.2 quizId p.1
  let w1 :=
    if q.correctAnswer.length = 0 then acc.2 ++ [msgNoAnswers (p.1 + 1)]
    else acc.2
  let w2 :=
    if q.options.length = 0 then w1 ++ [msgNoOptions (p.1 + 1)]
    else w1
  (acc.1 ++ [q], w2)

/-- `parseQuizMarkdown`: one markdown document to one quiz payload.
`nowIso` stands for the `new Date().toISOString()` clock read. -/
def parseQuizMarkdown (content sourcePath createdById nowIso : String) :
    QuizPayload :=
  let lines := splitLines content
  let st := lines.foldl pmStep ⟨none, [], [], none, false⟩
  let blocks := st.blocks ++ (match st.current with
    | some b => [b]
    | none => [])
  let d := jsTrim ⟨collapseWs (String.intercalate " " st.introLines).data⟩
  let description := if d = "" then "Seeded from " ++ sourcePath else d
  let quizId := stableId ["quiz", sourcePath]
  let qw := blocks.enum.foldl (qwStep quizId)
    (([], []) : List ParsedQuestion × List String)
  let t := st.title.getD ""
  { quizz :=
    { id := quizId,
      title := if t = "" then buildTitleFromPath sourcePath else t,
      description := description,
      createdById := createdById,
      questions := qw.1 },
    meta :=
    { source := sourcePath,
      language := deriveLanguageFromFilename sourcePath,
      generatedAt := nowIso,
      warnings := qw.2 } }

/-! ## Attachment URL normalizers (`build-quizz-sets.js`, `seeder.ts`) -/

/-- The shared already-normalized test: external http/https URL (matched
case-insensitively), root marker `~`, absolute path `/`, or the resolved
root prefix itself. -/
def isAbsoluteRef (trimmed basePre : String) : Bool :=
  startsWithS (lowStr trimmed) "http://" ||
  startsWithS (lowStr trimmed) "https://" ||
  startsWithS trimmed "~" || startsWithS trimmed "/" ||
  startsWithS trimmed basePre

/-- The consolidator's clean-up `replace(/^\.\//, '').replace(/^\//, '')`. -/
def buildClean (trimmed : String) : String :=
  let d1 := match trimmed.data with
    | '.' :: '/' :: t => t
    | d => d
  match d1 with
  | '/' :: t => ⟨t⟩
  | d => ⟨d⟩

/-- The seeder's clean-up `replace(/^\.?\//, '')`. -/
def seederClean (trimmed : String) : String :=
  match trimmed.data with
  | '.' :: '/' :: t => ⟨t⟩
  | '/' :: t => ⟨t⟩
  | _ => trimmed

/-- `relDir ? relDir.split(path.sep).filter(Boolean) : []`. -/
def relPartsOf (relDir : String) : List String :=
  if relDir = "" then []
  else ((splitCh relDir.data).map (fun l => (⟨l⟩ : String))).filter
    (fun s => s ≠ "")

/-- One attachment of `normalizeAttachments` in `build-quizz-sets.js`.
`basePre` models `path.resolve(root).split(path.sep).join('/')`. -/
def normalizeAtt (relParts : List String) (basePre : String)
    (att : Attachment) : Attachment :=
  let trimmed := jsTrim att.url
  if isAbsoluteRef trimmed basePre then { att with url := trimmed }
  else
    { att with
      url := posixJoin (basePre :: relParts ++ [buildClean trimmed]) }

/-- `normalizeAttachments(attachments, relDir, root)` from
`build-quizz-sets.js`. -/
def normalizeAttachments (atts : List Attachment) (relDir : String)
    (basePre : String) : List Attachment :=
  atts.map (normalizeAtt (relPartsOf relDir) basePre)

/-- One attachment of the seeder's `normalizeAttachmentUrls`: identical to
the consolidator's rule except that a whitespace-only URL is returned
untouched and the clean-up strips one leading `./` or `/` (not both). -/
def seederNormalizeAtt (relParts : List String) (absRoot : String)
    (att : Attachment) : Attachment :=
  let trimmed := jsTrim att.url
  if trimmed = "" then att
  else if isAbsoluteRef trimmed absRoot then { att with url := trimmed }
  else
    { att with
      url := posixJoin (absRoot :: relParts ++ [seederClean trimmed]) }

/-! ## Document consolidator (`build-quizz-sets.js`) -/

/-- The recognized language codes. -/
def KNOWN_LANGS : List String :=
  ["en", "fr", "es", "it", "ch", "de", "ua", "hi", "ptbr", "tr", "pt",
   "ja", "vi"]

/-- The end-anchored `LANG_SUFFIX` search: earliest `-` whose remainder is a
recognized code (case-insensitively); the capture is lower-cased by the
caller, so it is returned lower-cased here. -/
def langSuffix : List Char → Option String
  | [] => none
  | c :: rest =>
    if c = '-' && KNOWN_LANGS.contains (⟨rest.map lowChar⟩ : String) then
      some ⟨rest.map lowChar⟩
    else langSuffix rest

/-- `inferLanguage(metaLanguage, filePath)`; an absent or non-string
`meta.language` is modelled as `""` (both are falsy/unusable in the code). -/
def inferLanguage (metaLanguage filePath : String) : String :=
  let normalized := lowStr (jsTrim metaLanguage)
  if metaLanguage ≠ "" && KNOWN_LANGS.contains normalized then normalized
  else
    match langSuffix (baseNameExt filePath ".json").data with
    | some lang => lang
    | none => "en"

/-- Lower-case ASCII letter or digit. -/
def isLowerAlnum (c : Char) : Bool :=
  ('a' ≤ c && c ≤ 'z') || ('0' ≤ c && c ≤ '9')

/-- `replace(/[^a-z0-9]+/g, '-')`, one dash per run; the flag records
whether the previous character belonged to a run already replaced. -/
def dashRunsGo : Bool → List Char → List Char
  | _, [] => []
  | prev, c :: rest =>
    if isLowerAlnum c then c :: dashRunsGo false rest
    else if prev then dashRunsGo true rest
    else '-' :: dashRunsGo true rest

/-- Replace every run of non-alphanumerics with a single dash. -/
def dashRuns (l : List Char) : List Char :=
  dashRunsGo false l

/-- The global replacement of `--+` (two or more dashes) by `-`; the flag
records whether the previous character was a dash already emitted. -/
def collapseDashesGo : Bool → List Char → List Char
  | _, [] => []
  | prev, c :: rest =>
    if c = '-' then
      if prev then collapseDashesGo true rest
      else '-' :: collapseDashesGo true rest
    else c :: collapseDashesGo false rest

/-- Collapse every dash run to a single dash. -/
def collapseDashes (l : List Char) : List Char :=
  collapseDashesGo false l

/-- Expand the symbol words of `slugify`. -/
def slugSymbol (c : Char) : List Char :=
  if c = '+' then " plus ".data
  else if c = '#' then " sharp ".data
  else if c = '&' then " and ".data
  else [c]

/-- `slugify(input)`; a missing title is modelled as `""`. -/
def slugify (input : String) : String :=
  if input = "" then ""
  else
    let l1 := ((input.data.map lowChar).map slugSymbol).flatten
    let l2 := dashRuns l1
    let l3 := (((l2.dropWhile (fun c => c = '-')).reverse.dropWhile
      (fun c => c = '-')).reverse)
    ⟨collapseDashes l3⟩

/-- A question as re-stamped into a consolidated set. -/
structure SetQuestion where
  id : String
  question : String
  answer : Option String
  explanation : Option String
  hint : Option String
  correctAnswer : List String
  options : List String
  nature : String
  attachments : List Attachment
  setId : String
  quizzId : String
deriving DecidableEq, Repr

/-- One per-language set of a consolidated quiz. -/
structure QuizSet where
  id : String
  language : String
  title : String
  description : String
  questions : List SetQuestion
deriving DecidableEq, Repr

/-- The consolidated quiz aggregate. -/
structure AggQuizz where
  id : String
  slug : String
  createdById : String
  sets : List QuizSet
deriving DecidableEq, Repr

/-- The consolidated metadata. -/
structure AggMeta where
  languages : List String
  sources : List String
  generatedAt : String
  warnings : List String
deriving DecidableEq, Repr

/-- One combined `quizz.json` document. -/
structure AggPayload where
  quizz : AggQuizz
  meta : AggMeta
deriving DecidableEq, Repr

/-- One parsed file of a directory group, with its inferred language. -/
structure FileEntry where
  file : String
  language : String
  data : QuizPayload
deriving DecidableEq, Repr

/-- Lexicographic code-unit order on character lists (the order
`localeCompare` induces on the lower-case ASCII language codes). -/
def leCodeUnits : List Char → List Char → Bool
  | [], _ => true
  | _ :: _, [] => false
  | a :: as, b :: bs =>
    if a.toNat < b.toNat then true
    else if b.toNat < a.toNat then false
    else leCodeUnits as bs

/-- Code-unit comparison of two strings. -/
def leStr (a b : String) : Bool :=
  leCodeUnits a.data b.data

/-- Stable insertion of an entry after every entry whose language does not
compare after it (`localeCompare` modelled as code-unit order, which agrees
on the lower-case ASCII language codes). -/
def insertByLang (e : FileEntry) : List FileEntry → List FileEntry
  | [] => [e]
  | x :: xs =>
    if leStr x.language e.language then x :: insertByLang e xs
    else e :: x :: xs

/-- `parsedFiles.sort((a, b) => a.language.localeCompare(b.language))`,
a stable sort. -/
def sortByLang (l : List FileEntry) : List FileEntry :=
  l.foldl (fun acc e => insertByLang e acc) []

/-- `pickBase`: the `en` entry if present, else the first. -/
def pickBase (l : List FileEntry) : Option FileEntry :=
  match l.find? (fun p => p.language = "en") with
  | some e => some e
  | none => l.head?

/-- `buildCombinedPayload({dir, files, root})`, after the file reads: `files`
pairs each file path with its parsed JSON payload; `relDir` is
`path.relative(root, dir)`; `basePre` models the resolved root; `uuid`
stands for the `crypto.randomUUID()` draw and `nowIso` for the clock. -/
def buildCombinedPayload (files : List (String × QuizPayload))
    (dir relDir basePre uuid nowIso : String) : AggPayload :=
  let parsedFiles := files.map (fun fp =>
    FileEntry.mk fp.1 (inferLanguage fp.2.meta.language fp.1) fp.2)
  let sorted := sortByLang parsedFiles
  let base := pickBase sorted
  let quizzId := match base with
    | some b => if b.data.quizz.id = "" then uuid else b.data.quizz.id
    | none => uuid
  let slug0 := match base with
    | some b => slugify b.data.quizz.title
    | none => ""
  let slug := if slug0 = "" then baseName dir else slug0
  let createdById := match base with
    | some b =>
      if b.data.quizz.createdById = "" then "cmiz68drf00004eqsc3izonqy"
      else b.data.quizz.createdById
    | none => "cmiz68drf00004eqsc3izonqy"
  let relParts := relPartsOf relDir
  let sets := sorted.map (fun entry =>
    let setId := quizzId ++ "-" ++ entry.language
    ({ id := setId,
       language := entry.language,
       title := entry.data.quizz.title,
       description := entry.data.quizz.description,
       questions := entry.data.quizz.questions.map (fun q =>
         ({ id := q.id, question := q.question, answer := q.answer,
            explanation := q.explanation, hint := q.hint,
            correctAnswer := q.correctAnswer, options := q.options,
            nature := q.nature,
            attachments := q.attachments.map (normalizeAtt relParts basePre),
            setId := setId, quizzId := quizzId } : SetQuestion)) } : QuizSet))
  { quizz := { id := quizzId, slug := slug, createdById := createdById,
               sets := sets },
    meta := { languages := sorted.map (fun p => p.language),
              sources := (sorted.map (fun p => p.data.meta.source)).filter
                (fun s => s ≠ ""),
              generatedAt := nowIso,
              warnings := ((sorted.map
                (fun p => p.data.meta.warnings)).flatten).filter
                (fun s => s ≠ "") } }

/-! ## Theorems -/

/-- The parsed question whose nature/answers the claims inspect, before the
record is assembled. -/
theorem parseQuestionBlock_nature (block : QuestionBlock) (quizId : String)
    (idx : Nat) :
    (parseQuestionBlock block quizId idx).nature =
      (if 1 < (parseQuestionBlock block quizId idx).correctAnswer.length
       then "ChooseMany" else "ChooseOne") := by
  simp only [parseQuestionBlock]

/-- C1: a parsed question's `nature` is `ChooseMany` exactly when more than
one correct answer was marked, and `ChooseOne` otherwise (zero marked
answers included). -/
theorem claim_C1_nature_invariant (block : QuestionBlock) (quizId : String)
    (idx : Nat) :
    ((parseQuestionBlock block quizId idx).nature = "ChooseMany" ↔
      1 < (parseQuestionBlock block quizId idx).correctAnswer.length) ∧
    ((parseQuestionBlock block quizId idx).nature = "ChooseOne" ↔
      (parseQuestionBlock block quizId idx).correctAnswer.length ≤ 1) := by
  have h := parseQuestionBlock_nature block quizId idx
  by_cases hlen : 1 < (parseQuestionBlock block quizId idx).correctAnswer.length
  · rw [if_pos hlen] at h
    refine ⟨⟨fun _ => hlen, fun _ => h⟩, ⟨fun ht => ?_, fun hle => ?_⟩⟩
    · rw [h] at ht; exact absurd ht (by decide)
    · omega
  · rw [if_neg hlen] at h
    refine ⟨⟨fun ht => ?_, fun hgt => absurd hgt hlen⟩,
      ⟨fun _ => by omega, fun _ => h⟩⟩
    rw [h] at ht; exact absurd ht (by decide)

/-- A SHA-256 digest is always exactly 32 bytes. -/
theorem sha256_length (msg : List Nat) : (sha256 msg).length = 32 := by
  simp [sha256, wordBytes]

/-- Hex rendering doubles the byte count. -/
theorem hexList_length (bytes : List Nat) :
    ((bytes.map (fun b => [hexChar (b / 16), hexChar (b % 16)])).flatten).length
      = 2 * bytes.length := by
  induction bytes with
  | nil => rfl
  | cons b bs ih =>
    simp only [List.map_cons, List.flatten_cons, List.length_append,
      List.length_cons, List.length_nil, ih]
    omega

/-- The digest string has twice as many characters as digest bytes. -/
theorem hexStr_length (bytes : List Nat) :
    (hexStr bytes).data.length = 2 * bytes.length :=
  hexList_length bytes

/-- Every character `hexChar` produces is a lower-case hex digit. -/
theorem hexChar_mem (n : Nat) : hexChar n ∈ "0123456789abcdef".data := by
  by_cases h : n < 16
  · interval_cases n <;> decide
  · have hlen : "0123456789abcdef".data.length ≤ n := by
      simp only [String.data]
      norm_num
      omega
    rw [hexChar, List.getD_eq_default _ _ hlen]
    decide

/-- Every character of a hex digest is a lower-case hex digit. -/
theorem hexStr_mem (bytes : List Nat) :
    ∀ c ∈ (hexStr bytes).data, c ∈ "0123456789abcdef".data := by
  induction bytes with
  | nil => intro c hc; exact absurd hc (by simp [hexStr])
  | cons b bs ih =>
    intro c hc
    have hc2 : c ∈ [hexChar (b / 16), hexChar (b % 16)] ∨
        c ∈ ((bs.map (fun b => [hexChar (b / 16), hexChar (b % 16)])).flatten) := by
      simpa only [hexStr, List.map_cons, List.flatten_cons, List.mem_append]
        using hc
    rcases hc2 with h1 | h1
    · simp only [List.mem_cons, List.not_mem_nil, or_false] at h1
      rcases h1 with h1 | h1 <;> (rw [h1]; exact hexChar_mem _)
    · exact ih c h1

/-- C2 fails as stated: two different part lists whose encoded streams
coincide (the `|` separator occurs inside a part) receive the same
identifier, which is a structural collision, not a hash collision. -/
theorem claim_C2_counterexample :
    stableId ["a|", "b"] = stableId ["a", "|b"] ∧
    ("a|" :: ["b"]) ≠ ("a" :: ["|b"]) := by
  constructor
  · have h : encodeParts ["a|", "b"] = encodeParts ["a", "|b"] := by decide
    unfold stableId
    rw [h]
  · decide

/-- C2, amended: `stableId` always yields a 24-character identifier made of
lower-case hex digits (and, being a pure function, identical part lists give
identical identifiers); distinctness of different part lists does not hold
unconditionally. -/
theorem claim_C2_amended_shape (parts : List String) :
    (stableId parts).data.length = 24 ∧
    ∀ c ∈ (stableId parts).data, c ∈ "0123456789abcdef".data := by
  constructor
  · show ((hexStr (sha256 (utf8Bytes (encodeParts parts)))).data.take 24).length
      = 24
    simp only [List.length_take]
    rw [hexStr_length, sha256_length]
    decide
  · intro c hc
    have hc2 : c ∈ (hexStr (sha256 (utf8Bytes (encodeParts parts)))).data :=
      List.mem_of_mem_take hc
    exact hexStr_mem _ c hc2

/-- Witness for the amended C2 statement at a concrete part list. -/
theorem claim_C2_amended_shape_witness :
    (stableId ["quiz", "python/python-quiz.md"]).data.length = 24 ∧
    ∀ c ∈ (stableId ["quiz", "python/python-quiz.md"]).data,
      c ∈ "0123456789abcdef".data :=
  claim_C2_amended_shape ["quiz", "python/python-quiz.md"]

/-- The spec-side fenced-code toggle: flipped by every line whose trimmed
text starts with the fence delimiter. -/
def fenceToggle (inCode : Bool) (line : String) : Bool :=
  if startsWithS (jsTrim line) "```" then !inCode else inCode

/-- What one line contributes to the option list: its captured text when it
matches the option pattern outside code. -/
def optCapture (inCode : Bool) (line : String) : List String :=
  match optionMatch line with
  | some mt => if fenceToggle inCode line then [] else [jsTrim mt.2]
  | none => []

/-- What one line contributes to the correct-answer list. -/
def caCapture (inCode : Bool) (line : String) : List String :=
  match optionMatch line with
  | some mt =>
    if fenceToggle inCode line then []
    else if mt.1 = 'x' || mt.1 = 'X' then [jsTrim mt.2] else []
  | none => []

/-- All options captured over a line run, threading the code toggle. -/
def optsOf (inCode : Bool) : List String → List String
  | [] => []
  | l :: ls => optCapture inCode l ++ optsOf (fenceToggle inCode l) ls

/-- All correct answers captured over a line run. -/
def casOf (inCode : Bool) : List String → List String
  | [] => []
  | l :: ls => caCapture inCode l ++ casOf (fenceToggle inCode l) ls

/-- One parser step tracks exactly the spec-side code toggle. -/
theorem qbStep_insideCode (q : String) (i : Nat) (st : QBState) (l : String) :
    (qbStep q i st l).insideCode = fenceToggle st.insideCode l := by
  cases hm : optionMatch l <;>
    simp only [qbStep, fenceToggle, hm] <;> split_ifs <;> rfl

/-- One parser step appends exactly the line's image references. -/
theorem qbStep_attachments (q : String) (i : Nat) (st : QBState)
    (l : String) :
    (qbStep q i st l).attachments =
      st.attachments ++ (imageRefs l).map (attOf q i) := by
  cases hm : optionMatch l <;>
    simp only [qbStep, hm] <;> split_ifs <;> rfl

/-- One parser step appends exactly the line's option capture. -/
theorem qbStep_options (q : String) (i : Nat) (st : QBState) (l : String) :
    (qbStep q i st l).options = st.options ++ optCapture st.insideCode l := by
  cases hm : optionMatch l <;>
    simp only [qbStep, optCapture, fenceToggle, hm] <;>
    split_ifs <;> simp_all

/-- One parser step appends exactly the line's correct-answer capture. -/
theorem qbStep_correctAnswer (q : String) (i : Nat) (st : QBState)
    (l : String) :
    (qbStep q i st l).correctAnswer =
      st.correctAnswer ++ caCapture st.insideCode l := by
  cases hm : optionMatch l <;>
    simp only [qbStep, caCapture, fenceToggle, hm] <;>
    split_ifs <;> simp_all

/-- Folding the parser over a line run accumulates all image references, in
document order, independently of the code toggle. -/
theorem qbFold_attachments (q : String) (i : Nat) (body : List String)
    (st : QBState) :
    ((body.foldl (qbStep q i) st).attachments : List Attachment) =
      st.attachments ++ (body.map (fun l => (imageRefs l).map (attOf q i))).flatten := by
  induction body generalizing st with
  | nil => simp
  | cons l ls ih =>
    simp only [List.foldl_cons, List.map_cons, List.flatten_cons]
    rw [ih, qbStep_attachments]
    simp [List.append_assoc]

/-- Folding the parser over a line run accumulates exactly the non-code
option captures. -/
theorem qbFold_options (q : String) (i : Nat) (body : List String)
    (st : QBState) :
    ((body.foldl (qbStep q i) st).options : List String) =
      st.options ++ optsOf st.insideCode body := by
  induction body generalizing st with
  | nil => simp [optsOf]
  | cons l ls ih =>
    simp only [List.foldl_cons, optsOf]
    rw [ih, qbStep_options, qbStep_insideCode]
    simp [List.append_assoc]

/-- Folding the parser over a line run accumulates exactly the non-code
marked captures. -/
theorem qbFold_correctAnswer (q : String) (i : Nat) (body : List String)
    (st : QBState) :
    ((body.foldl (qbStep q i) st).correctAnswer : List String) =
      st.correctAnswer ++ casOf st.insideCode body := by
  induction body generalizing st with
  | nil => simp [casOf]
  | cons l ls ih =>
    simp only [List.foldl_cons, casOf]
    rw [ih, qbStep_correctAnswer, qbStep_insideCode]
    simp [List.append_assoc]

/-- C9: inside a fenced code span, option-pattern lines are not captured as
options or correct answers (the capture lists are exactly the non-code
captures in order), while image references are extracted from every line in
document order; concretely, a fenced `- [x]` line is ignored while a fenced
image is still collected. -/
theorem claim_C9_code_fences (block : QuestionBlock) (q : String) (i : Nat) :
    ((parseQuestionBlock block q i).attachments =
      (block.body.map (fun l => (imageRefs l).map (attOf q i))).flatten ∧
    (parseQuestionBlock block q i).options = optsOf false block.body ∧
    (parseQuestionBlock block q i).correctAnswer = casOf false block.body) ∧
    ((parseQuestionBlock
        ⟨"1. q", ["```", "- [x] fake", "![in](code.png)", "```"]⟩
        "Q" 1).options = [] ∧
    (parseQuestionBlock
        ⟨"1. q", ["```", "- [x] fake", "![in](code.png)", "```"]⟩
        "Q" 1).correctAnswer = [] ∧
    ((parseQuestionBlock
        ⟨"1. q", ["```", "- [x] fake", "![in](code.png)", "```"]⟩
        "Q" 1).attachments).map Attachment.url = ["code.png"]) := by
  refine ⟨⟨?_, ?_, ?_⟩, by decide, by decide, by decide⟩
  · simp only [parseQuestionBlock]
    rw [qbFold_attachments]
    rfl
  · simp only [parseQuestionBlock]
    rw [qbFold_options]
    rfl
  · simp only [parseQuestionBlock]
    rw [qbFold_correctAnswer]
    rfl

/-- Normalization never touches any field but `url`. -/
theorem normalizeAtt_frame (rp : List String) (bp : String)
    (att : Attachment) :
    (normalizeAtt rp bp att).id = att.id ∧
    (normalizeAtt rp bp att).type = att.type := by
  simp only [normalizeAtt]
  split_ifs <;> exact ⟨rfl, rfl⟩

/-- C6: attachment normalization rewrites only `url` (id and type survive),
attachment identifiers are computed at parse time from the quiz id, the
question index and the raw reference string, and so changing only the
declared root leaves identifiers unchanged even where it changes URLs
(witnessed concretely in the last two conjuncts). -/
theorem claim_C6_attachment_identity :
    (∀ (rp : List String) (bp : String) (att : Attachment),
      (normalizeAtt rp bp att).id = att.id ∧
      (normalizeAtt rp bp att).type = att.type) ∧
    (∀ (block : QuestionBlock) (q : String) (i : Nat),
      (parseQuestionBlock block q i).attachments.map Attachment.id =
        ((block.body.map imageRefs).flatten).map
          (fun ref => stableId ["attachment", q, numPart i, ref])) ∧
    (∀ (rp : List String) (bp1 bp2 : String) (att : Attachment),
      (normalizeAtt rp bp1 att).id = (normalizeAtt rp bp2 att).id) ∧
    (normalizeAtt ["python"] "/r1" ⟨"I", "img/q.png", "question"⟩).url ≠
      (normalizeAtt ["python"] "/r2" ⟨"I", "img/q.png", "question"⟩).url ∧
    (normalizeAtt ["python"] "/r1" ⟨"I", "img/q.png", "question"⟩).id =
      (normalizeAtt ["python"] "/r2" ⟨"I", "img/q.png", "question"⟩).id := by
  refine ⟨normalizeAtt_frame, ?_, ?_, by decide, by decide⟩
  · intro block q i
    simp only [parseQuestionBlock]
    rw [qbFold_attachments]
    simp only [List.nil_append, List.map_flatten, List.map_map]
    congr 1
    apply List.map_congr_left
    intro l _
    simp only [Function.comp_apply]
    rw [List.map_map]
    rfl
  · intro rp bp1 bp2 att
    rw [(normalizeAtt_frame rp bp1 att).1, (normalizeAtt_frame rp bp2 att).1]

/-- The warnings one question contributes, in emission order. -/
def warnOf (q : ParsedQuestion) (idx : Nat) : List String :=
  (if q.correctAnswer.length = 0 then [msgNoAnswers (idx + 1)] else []) ++
  (if q.options.length = 0 then [msgNoOptions (idx + 1)] else [])

/-- The questions/warnings fold keeps every question and accumulates each
question's warnings in order. -/
theorem qwFold (quizId : String) (l : List (Nat × QuestionBlock))
    (acc : List ParsedQuestion × List String) :
    (l.foldl (qwStep quizId) acc).1 =
      acc.1 ++ l.map (fun p => parseQuestionBlock p.2 quizId p.1) ∧
    (l.foldl (qwStep quizId) acc).2 =
      acc.2 ++ (l.map
        (fun p => warnOf (parseQuestionBlock p.2 quizId p.1) p.1)).flatten := by
  induction l generalizing acc with
  | nil => simp
  | cons p ps ih =>
    simp only [List.foldl_cons, List.map_cons, List.flatten_cons]
    rw [(ih _).1, (ih _).2]
    unfold qwStep warnOf
    constructor
    · simp [List.append_assoc]
    · split_ifs <;> simp_all [List.append_assoc]

/-- Position `i` of the parsed questions list contributes its two
conditional warnings to the flattened warning list. -/
theorem warningsMemOfQuestion (quizId : String)
    (blocks : List QuestionBlock) (i : Nat) (q : ParsedQuestion)
    (hq : (blocks.enum.map (fun p =>
      parseQuestionBlock p.2 quizId p.1))[i]? = some q) :
    (q.options = [] →
      msgNoOptions (i + 1) ∈ (blocks.enum.map (fun p =>
        warnOf (parseQuestionBlock p.2 quizId p.1) p.1)).flatten) ∧
    (q.correctAnswer = [] →
      msgNoAnswers (i + 1) ∈ (blocks.enum.map (fun p =>
        warnOf (parseQuestionBlock p.2 quizId p.1) p.1)).flatten) := by
  rw [List.getElem?_map] at hq
  rcases Option.map_eq_some'.mp hq with ⟨p, hp, hfp⟩
  rcases List.getElem?_eq_some_iff.mp hp with ⟨hplen, hpget⟩
  have hlen2 : i < blocks.length := by
    simpa [List.enum_length] using hplen
  have hpi : p = (i, blocks[i]) := by
    rw [← hpget]
    simp [List.getElem_enum]
  have hq2 : q = parseQuestionBlock blocks[i] quizId i := by
    rw [← hfp, hpi]
  have hmem : warnOf (parseQuestionBlock blocks[i] quizId i) i ∈
      blocks.enum.map (fun p =>
        warnOf (parseQuestionBlock p.2 quizId p.1) p.1) := by
    have hm : p ∈ blocks.enum := List.getElem?_mem hp
    have hmem0 := List.mem_map_of_mem
      (fun p => warnOf (parseQuestionBlock p.2 quizId p.1) p.1) hm
    rw [hpi] at hmem0
    exact hmem0
  constructor
  · intro hopt
    rw [hq2] at hopt
    refine List.mem_flatten.mpr ⟨_, hmem, ?_⟩
    simp only [warnOf, List.mem_append]
    right
    simp [hopt]
  · intro hca
    rw [hq2] at hca
    refine List.mem_flatten.mpr ⟨_, hmem, ?_⟩
    simp only [warnOf, List.mem_append]
    left
    simp [hca]

/-- C8: a question lacking options gets a missing-options warning and a
question lacking marked answers gets a missing-answers warning, while the
question record itself is kept; concretely, a block with no checkbox lines
yields empty options and answers and exactly the two warnings. -/
theorem claim_C8_warnings (content sourcePath createdById nowIso : String) :
    (∀ i q, (parseQuizMarkdown content sourcePath createdById
        nowIso).quizz.questions[i]? = some q →
      (q.options = [] →
        msgNoOptions (i + 1) ∈
          (parseQuizMarkdown content sourcePath createdById
            nowIso).meta.warnings) ∧
      (q.correctAnswer = [] →
        msgNoAnswers (i + 1) ∈
          (parseQuizMarkdown content sourcePath createdById
            nowIso).meta.warnings)) ∧
    ((parseQuizMarkdown "#### 1. Why?\nsome text" "p/q-quiz.md" "u"
        "T").quizz.questions.map
      (fun q => (q.options, q.correctAnswer)) = [([], [])] ∧
     (parseQuizMarkdown "#### 1. Why?\nsome text" "p/q-quiz.md" "u"
        "T").meta.warnings = [msgNoAnswers 1, msgNoOptions 1]) := by
  constructor
  · intro i q hq
    simp only [parseQuizMarkdown] at hq ⊢
    rw [(qwFold _ _ _).1] at hq
    rw [(qwFold _ _ _).2]
    simp only [List.nil_append] at hq ⊢
    exact warningsMemOfQuestion _ _ i q hq
  · exact ⟨by decide, by decide⟩

/-- Witness for C8 at its concrete scenario document. -/
theorem claim_C8_warnings_witness :
    msgNoOptions 1 ∈ (parseQuizMarkdown "#### 1. Why?\nsome text"
      "p/q-quiz.md" "u" "T").meta.warnings ∧
    msgNoAnswers 1 ∈ (parseQuizMarkdown "#### 1. Why?\nsome text"
      "p/q-quiz.md" "u" "T").meta.warnings := by
  have hlen : 0 < (parseQuizMarkdown "#### 1. Why?\nsome text"
      "p/q-quiz.md" "u" "T").quizz.questions.length := by decide
  have hq := List.getElem?_eq_getElem hlen
  have h2 := (claim_C8_warnings "#### 1. Why?\nsome text" "p/q-quiz.md" "u"
    "T").1 0 _ hq
  have h3 : ((parseQuizMarkdown "#### 1. Why?\nsome text" "p/q-quiz.md" "u"
      "T").quizz.questions[0]?.map ParsedQuestion.options) = some [] := by
    decide
  have h4 : ((parseQuizMarkdown "#### 1. Why?\nsome text" "p/q-quiz.md" "u"
      "T").quizz.questions[0]?.map ParsedQuestion.correctAnswer) =
      some [] := by
    decide
  rw [hq] at h3 h4
  simp only [Option.map_some', Option.some.injEq] at h3 h4
  exact ⟨h2.1 h3, h2.2 h4⟩

/-- The title component of one scanner step: a `## ` line is captured while
the current title is still falsy, wherever the scanner is. -/
def titleStep (t : Option String) (line : String) : Option String :=
  if titleFalsy t && startsWithS line "## " then some (headingStrip 2 line)
  else t

/-- The scanner's title evolves by `titleStep` alone. -/
theorem pmStep_title (st : PMState) (line : String) :
    (pmStep st line).title = titleStep st.title line := by
  simp only [pmStep, titleStep]
  split_ifs <;> try rfl
  cases st.current <;> rfl

/-- Folded form of `pmStep_title`. -/
theorem pmFold_title (lines : List String) (st : PMState) :
    ((lines.foldl pmStep st).title : Option String) =
      lines.foldl titleStep st.title := by
  induction lines generalizing st with
  | nil => rfl
  | cons l ls ih =>
    simp only [List.foldl_cons]
    rw [ih, pmStep_title]

/-- A non-falsy title is never overwritten. -/
theorem titleFold_keep (lines : List String) (t : Option String)
    (h : titleFalsy t = false) : lines.foldl titleStep t = t := by
  induction lines with
  | nil => rfl
  | cons l ls ih =>
    have hstep : titleStep t l = t := by
      simp [titleStep, h]
    simp only [List.foldl_cons, hstep]
    exact ih

/-- The first `## ` line anywhere in the document whose stripped label is
nonempty (the amended title rule: the capture is not limited to the
preamble, and an empty label does not count). -/
def firstNonemptyHeading : List String → Option String
  | [] => none
  | l :: ls =>
    if startsWithS l "## " && headingStrip 2 l ≠ "" then
      some (headingStrip 2 l)
    else firstNonemptyHeading ls

/-- A falsy title is resolved by the first nonempty `## ` capture, with the
path-derived fallback. -/
theorem titleFold_resolve (lines : List String) (t : Option String)
    (fallback : String) (h : titleFalsy t = true) :
    (if (lines.foldl titleStep t).getD "" = "" then fallback
     else (lines.foldl titleStep t).getD "") =
      (firstNonemptyHeading lines).getD fallback := by
  induction lines generalizing t with
  | nil =>
    have ht : t.getD "" = "" := by
      cases t with
      | none => rfl
      | some s => simpa [titleFalsy] using h
    simp [firstNonemptyHeading, ht]
  | cons l ls ih =>
    simp only [List.foldl_cons, firstNonemptyHeading]
    by_cases hs : startsWithS l "## " = true
    · have hstep : titleStep t l = some (headingStrip 2 l) := by
        simp [titleStep, h, hs]
      rw [hstep]
      by_cases hne : headingStrip 2 l = ""
      · have : titleFalsy (some (headingStrip 2 l)) = true := by
          simp [titleFalsy, hne]
        rw [ih _ this]
        simp [hs, hne]
      · have hfalse : titleFalsy (some (headingStrip 2 l)) = false := by
          simp [titleFalsy, hne]
        rw [titleFold_keep ls _ hfalse]
        simp [hs, hne]
    · have hstep : titleStep t l = t := by
        simp [titleStep, hs]
      rw [hstep, ih _ h]
      simp [hs]

/-- C7, amended: the quiz title is the first `## ` heading line with a
nonempty stripped label anywhere in the document (the scanner also captures
a late heading when no earlier line set a title), else it is synthesized
from the first path segment. -/
theorem claim_C7_amended_title (content sourcePath createdById nowIso :
    String) :
    (parseQuizMarkdown content sourcePath createdById nowIso).quizz.title =
      (firstNonemptyHeading (splitLines content)).getD
        (buildTitleFromPath sourcePath) := by
  simp only [parseQuizMarkdown]
  rw [pmFold_title]
  exact titleFold_resolve (splitLines content) none
    (buildTitleFromPath sourcePath) rfl

/-- C7 fails as stated: in this document the only `## ` line appears after a
question heading (the parser is no longer in the preamble), yet it still
becomes the title instead of the path-synthesized `Python`. -/
theorem claim_C7_counterexample :
    (parseQuizMarkdown "#### 1. Q?\n- [x] a\n## Sneaky" "python/x-quiz.md"
      "u" "T").quizz.title = "Sneaky" ∧
    buildTitleFromPath "python/x-quiz.md" = "Python" ∧
    ("Sneaky" : String) ≠ "Python" ∧
    startsWithS "#### 1. Q?" "#### " = true := by
  exact ⟨by decide, by decide, by decide, by decide⟩

/-! ## Path-normalization lemmas -/

/-- Splitting never yields an empty segment list. -/
theorem splitCh_ne_nil (l : List Char) : splitCh l ≠ [] := by
  cases l with
  | nil => simp [splitCh]
  | cons c rest =>
    simp only [splitCh]
    rcases h : splitCh rest with _ | ⟨s, ss⟩
    · simp
    · split_ifs <;> simp

/-- Splitting distributes over an explicit separator. -/
theorem splitCh_append (a b : List Char) :
    splitCh (a ++ '/' :: b) = splitCh a ++ splitCh b := by
  induction a with
  | nil =>
    simp only [List.nil_append, splitCh]
    rcases h : splitCh b with _ | ⟨s, ss⟩
    · exact absurd h (splitCh_ne_nil b)
    · simp
  | cons c a ih =>
    simp only [List.cons_append, splitCh, List.append_eq]
    rw [ih]
    rcases h : splitCh a with _ | ⟨s, ss⟩
    · exact absurd h (splitCh_ne_nil a)
    · by_cases hc : c = '/' <;> simp [hc]

/-- Joining the split segments restores the characters. -/
theorem joinSegs_splitCh (l : List Char) : joinSegs (splitCh l) = l := by
  induction l with
  | nil => rfl
  | cons c rest ih =>
    simp only [splitCh]
    rcases h : splitCh rest with _ | ⟨s, ss⟩
    · exact absurd h (splitCh_ne_nil rest)
    · rw [h] at ih
      by_cases hc : c = '/'
      · subst hc
        simpa [joinSegs] using ih
      · simp only [if_neg hc]
        cases ss with
        | nil => simpa [joinSegs] using congrArg (c :: ·) ih
        | cons t ts => simpa [joinSegs] using congrArg (c :: ·) ih

/-- The cons equation of `joinSegs`. -/
theorem joinSegs_cons (s : List Char) (rest : List (List Char)) :
    joinSegs (s :: rest) =
      if rest = [] then s else s ++ '/' :: joinSegs rest := by
  cases rest <;> simp [joinSegs]

/-- Joining distributes over list append (both halves nonempty). -/
theorem joinSegs_append (A B : List (List Char)) (hA : A ≠ [])
    (hB : B ≠ []) :
    joinSegs (A ++ B) = joinSegs A ++ '/' :: joinSegs B := by
  induction A with
  | nil => exact absurd rfl hA
  | cons x A ih =>
    rw [List.cons_append, joinSegs_cons, joinSegs_cons x A]
    by_cases hA2 : A = []
    · subst hA2
      simp [hB]
    · have hAB : A ++ B ≠ [] := by simp [hA2]
      rw [if_neg hAB, if_neg hA2, ih hA2]
      simp [List.append_assoc]

/-- Splitting a joined list is the flattened splitting of its parts. -/
theorem splitCh_joinSegs (L : List (List Char)) (h : L ≠ []) :
    splitCh (joinSegs L) = (L.map splitCh).flatten := by
  induction L with
  | nil => exact absurd rfl h
  | cons x L ih =>
    cases L with
    | nil => simp [joinSegs]
    | cons y L2 =>
      have h2 : y :: L2 ≠ [] := by simp
      rw [joinSegs_cons, if_neg h2, splitCh_append, ih h2]
      simp

/-- A plain path segment: nonempty and neither `.` nor `..`. -/
def plainSeg (seg : List Char) : Bool :=
  !(seg = [] || seg = ['.'] || seg = ['.', '.'])

/-- All `/`-segments of a string are plain. -/
def segsPlain (s : String) : Bool :=
  (splitCh s.data).all plainSeg

/-- The segment loop appends a run made only of empty or plain segments,
dropping the empties. -/
theorem normStack_emptyOrPlain (allow : Bool) (segs : List (List Char))
    (st : List (List Char))
    (h : ∀ seg ∈ segs, seg = [] ∨ plainSeg seg = true) :
    normStack allow st segs = st ++ segs.filter (fun s => s ≠ []) := by
  induction segs generalizing st with
  | nil => simp [normStack]
  | cons seg rest ih =>
    have hseg := h seg (by simp)
    have hrest : ∀ s ∈ rest, s = [] ∨ plainSeg s = true :=
      fun s hs => h s (by simp [hs])
    simp only [normStack, List.foldl_cons] at ih ⊢
    rcases hseg with h1 | h1
    · subst h1
      rw [show normStep allow st [] = st by simp [normStep]]
      rw [ih st hrest]
      simp
    · have hne : seg ≠ [] := by
        intro he
        rw [he] at h1
        simp [plainSeg] at h1
      have hstep : normStep allow st seg = st ++ [seg] := by
        simp only [plainSeg, Bool.not_eq_true', Bool.or_eq_false_iff,
          decide_eq_false_iff_not] at h1
        simp [normStep, h1.1.1, h1.1.2, h1.2]
      rw [hstep, ih (st ++ [seg]) hrest]
      simp only [List.filter_cons]
      rw [if_pos (by simpa using hne)]
      simp [List.append_assoc]

/-- A string whose segments are all plain is nonempty and neither starts
nor ends with a separator. -/
theorem segsPlain_shape (p : List Char) (h : (splitCh p).all plainSeg = true) :
    p ≠ [] ∧ p.head? ≠ some '/' ∧ p.getLast? ≠ some '/' := by
  refine ⟨?_, ?_, ?_⟩
  · intro he
    subst he
    simp [splitCh, plainSeg] at h
  · intro hh
    rcases p with _ | ⟨c, t⟩
    · simp at hh
    · simp only [List.head?_cons, Option.some.injEq] at hh
      subst hh
      have : ('/' :: t) = [] ++ '/' :: t := rfl
      rw [this, splitCh_append] at h
      simp [splitCh, plainSeg] at h
  · intro hl
    rcases List.getLast?_eq_some_iff.mp hl with ⟨a, ha⟩
    subst ha
    have : a ++ ['/'] = a ++ '/' :: [] := rfl
    rw [this, splitCh_append] at h
    simp [splitCh, plainSeg] at h

/-- Joining all-plain parts never ends with a separator. -/
theorem joinSegs_plain_getLast (L : List (List Char)) (hL : L ≠ [])
    (h : ∀ p ∈ L, (splitCh p).all plainSeg = true) :
    (joinSegs L).getLast? ≠ some '/' := by
  induction L with
  | nil => exact absurd rfl hL
  | cons x L ih =>
    rw [joinSegs_cons]
    by_cases hL2 : L = []
    · rw [if_pos hL2]
      exact (segsPlain_shape x (h x (by simp))).2.2
    · rw [if_neg hL2]
      have hjoin : joinSegs L ≠ [] := by
        rcases L with _ | ⟨y, L2⟩
        · exact absurd rfl hL2
        · rw [joinSegs_cons]
          have hy := segsPlain_shape y (h y (by simp))
          split_ifs
          · exact hy.1
          · simp
      have h1 : (x ++ '/' :: joinSegs L).getLast? =
          ('/' :: joinSegs L).getLast? :=
        List.getLast?_append_of_ne_nil x (by simp)
      have h2 : ('/' :: joinSegs L).getLast? = (joinSegs L).getLast? := by
        have he : ('/' :: joinSegs L) = ['/'] ++ joinSegs L := rfl
        rw [he]
        exact List.getLast?_append_of_ne_nil ['/'] hjoin
      rw [h1, h2]
      exact ih hL2 (fun p hp => h p (by simp [hp]))

/-- Joining the flattened segment lists of parts equals joining the parts. -/
theorem joinSegs_flatten_splitCh (L : List (List Char)) (hL : L ≠ []) :
    joinSegs ((L.map splitCh).flatten) = joinSegs L := by
  induction L with
  | nil => exact absurd rfl hL
  | cons x L ih =>
    cases L with
    | nil =>
      simp only [List.map_cons, List.map_nil, List.flatten_cons,
        List.flatten_nil, List.append_nil]
      rw [joinSegs_splitCh]
      rfl
    | cons y L2 =>
      have h2 : y :: L2 ≠ [] := by simp
      have hflat : ((y :: L2).map splitCh).flatten ≠ [] := by
        simp only [List.map_cons, List.flatten_cons, ne_eq,
          List.append_eq_nil]
        intro hc
        exact splitCh_ne_nil y hc.1
      simp only [List.map_cons, List.flatten_cons]
      rw [joinSegs_append _ _ (splitCh_ne_nil x) (by
        simpa using hflat)]
      rw [joinSegs_splitCh]
      have hih := ih h2
      simp only [List.map_cons, List.flatten_cons] at hih
      rw [hih, joinSegs_cons x (y :: L2), if_neg h2]

/-- Normalizing a join whose head starts with `/` and whose segments are all
plain returns the join unchanged (with the leading separator restored). -/
theorem posixNormalizeCh_abs_plain (b : List Char) (rest : List (List Char))
    (hb : (splitCh b).all plainSeg = true)
    (hr : ∀ p ∈ rest, (splitCh p).all plainSeg = true) :
    posixNormalizeCh (joinSegs (('/' :: b) :: rest)) =
      '/' :: joinSegs (b :: rest) := by
  have hbne := (segsPlain_shape b hb).1
  have hKne : joinSegs (b :: rest) ≠ [] := by
    rw [joinSegs_cons]
    split_ifs
    · exact hbne
    · simp [hbne]
  have hJ : joinSegs (('/' :: b) :: rest) = '/' :: joinSegs (b :: rest) := by
    rw [joinSegs_cons, joinSegs_cons b rest]
    split_ifs with h
    · rfl
    · simp
  rw [hJ]
  set K := joinSegs (b :: rest) with hK
  have hsegs : splitCh ('/' :: K) =
      [] :: ((b :: rest).map splitCh).flatten := by
    have he : ('/' :: K) = [] ++ '/' :: K := rfl
    rw [he, splitCh_append, hK, splitCh_joinSegs _ (by simp)]
    rfl
  have hplainflat : ∀ seg ∈ ((b :: rest).map splitCh).flatten,
      plainSeg seg = true := by
    intro seg hseg
    rcases List.mem_flatten.mp hseg with ⟨l, hl, hseg2⟩
    rcases List.mem_map.mp hl with ⟨p, hp, rfl⟩
    rcases List.mem_cons.mp hp with h | h
    · subst h
      exact List.all_eq_true.mp hb seg hseg2
    · exact List.all_eq_true.mp (hr p h) seg hseg2
  have hstack : ∀ a, normStack a [] (splitCh ('/' :: K)) =
      ((b :: rest).map splitCh).flatten := by
    intro a
    rw [hsegs, normStack_emptyOrPlain a _ [] (by
      intro seg hseg
      rcases List.mem_cons.mp hseg with h | h
      · exact Or.inl h
      · exact Or.inr (hplainflat seg h))]
    have hxf : (([] : List Char) :: ((b :: rest).map splitCh).flatten).filter
        (fun s => s ≠ []) = (((b :: rest).map splitCh).flatten).filter
        (fun s => s ≠ []) := by simp
    rw [List.nil_append, hxf]
    apply List.filter_eq_self.mpr
    intro seg hseg
    have hp2 := hplainflat seg hseg
    simp only [plainSeg, Bool.not_eq_true', Bool.or_eq_false_iff,
      decide_eq_false_iff_not] at hp2
    simpa using hp2.1.1
  have hres : joinSegs (((b :: rest).map splitCh).flatten) = K := by
    rw [hK]
    exact joinSegs_flatten_splitCh _ (by simp)
  have hKlast : K.getLast? ≠ some '/' := by
    rw [hK]
    refine joinSegs_plain_getLast (b :: rest) (by simp) ?_
    intro p hp
    rcases List.mem_cons.mp hp with h | h
    · subst h; exact hb
    · exact hr p h
  have hgl : ('/' :: K).getLast? = K.getLast? := by
    have he : ('/' :: K) = ['/'] ++ K := rfl
    rw [he]
    exact List.getLast?_append_of_ne_nil ['/'] hKne
  have hstack2 : ∀ a, normStack a [] (splitCh ('/' :: K)) =
      splitCh b ++ (rest.map splitCh).flatten := fun a => by
    simpa using hstack a
  have hres2 : joinSegs (splitCh b ++ (rest.map splitCh).flatten) = K := by
    simpa using hres
  simp [posixNormalizeCh, hstack2, hres2, hKne, hgl, hKlast]

/-- `String.intercalate.go` produces the slash-joined characters. -/
theorem strIntercalateGo_data (acc : String) (as : List String) :
    (String.intercalate.go acc "/" as).data =
      joinSegs (acc.data :: as.map String.data) := by
  induction as generalizing acc with
  | nil => simp [String.intercalate.go, joinSegs]
  | cons b bs ih =>
    simp only [String.intercalate.go, List.map_cons]
    rw [ih]
    have hd : (acc ++ "/" ++ b).data = acc.data ++ '/' :: b.data := by
      simp [String.data_append]
    rw [hd, joinSegs_cons, joinSegs_cons acc.data]
    by_cases hbs : bs.map String.data = []
    · simp [hbs, joinSegs_cons]
    · rw [if_neg hbs, if_neg (by simp), joinSegs_cons b.data, if_neg hbs]
      simp [List.append_assoc]

/-- The characters of a slash-intercalation are the slash-join of the
parts' characters. -/
theorem strIntercalate_data (parts : List String) (h : parts ≠ []) :
    (String.intercalate "/" parts).data =
      joinSegs (parts.map String.data) := by
  cases parts with
  | nil => exact absurd rfl h
  | cons a as =>
    simp only [String.intercalate, List.map_cons]
    exact strIntercalateGo_data a as

/-- The claim-side clean step: strip one leading `./` if present. -/
def specCleanRef (trimmed : String) : String :=
  if startsWithS trimmed "./" then ⟨trimmed.data.drop 2⟩ else trimmed

/-- A plain-segmented string is a nonempty character list. -/
theorem segsPlain_data_ne (s : String) (h : segsPlain s = true) :
    s.data ≠ [] :=
  (segsPlain_shape s.data h).1

/-- Rebuilding a string from its characters is the identity. -/
theorem strMk_data (s : String) : (⟨s.data⟩ : String) = s := by
  cases s
  rfl

/-- A one-character prefix test reads the first character. -/
theorem startsWith1_iff (s : String) (c : Char) :
    startsWithS s ⟨[c]⟩ = true ↔ ∃ t, s.data = c :: t := by
  simp only [startsWithS]
  rcases hp : s.data with _ | ⟨a, t⟩ <;> simp [List.isPrefixOf]
  exact eq_comm

/-- A two-character prefix test reads the first two characters. -/
theorem startsWith2_iff (s : String) (c1 c2 : Char) :
    startsWithS s ⟨[c1, c2]⟩ = true ↔ ∃ t, s.data = c1 :: c2 :: t := by
  simp only [startsWithS]
  rcases hp : s.data with _ | ⟨a, _ | ⟨b, t⟩⟩ <;> simp [List.isPrefixOf]
  constructor
  · rintro ⟨h1, h2⟩
    exact ⟨h1.symm, h2.symm⟩
  · rintro ⟨h1, h2⟩
    exact ⟨h1.symm, h2.symm⟩

/-- Under the relative-branch conditions, the code's two replacements agree
with the claim's single `./` strip. -/
theorem buildClean_eq_spec (trimmed : String)
    (hslash : startsWithS trimmed "/" = false)
    (hhead : (specCleanRef trimmed).data.head? ≠ some '/') :
    buildClean trimmed = specCleanRef trimmed := by
  by_cases hs : startsWithS trimmed "./" = true
  · rcases (startsWith2_iff trimmed '.' '/').mp hs with ⟨t, hd⟩
    have hsp : specCleanRef trimmed = ⟨t⟩ := by
      simp [specCleanRef, hs, hd]
    rw [hsp]
    rw [hsp] at hhead
    simp only [buildClean, hd]
    rcases t with _ | ⟨c3, t2⟩
    · rfl
    · have h3 : c3 ≠ '/' := by
        intro hc
        subst hc
        simp at hhead
      split
      · next t3 heq =>
        injection heq with h1 h2
        exact absurd h1 h3
      · next => rfl
  · have hs2 : startsWithS trimmed "./" = false := by simpa using hs
    have hsp : specCleanRef trimmed = trimmed := by
      simp [specCleanRef, hs2]
    rw [hsp]
    have hnotdot : ∀ t, trimmed.data ≠ '.' :: '/' :: t := by
      intro t hc
      exact hs ((startsWith2_iff trimmed '.' '/').mpr ⟨t, hc⟩)
    have hnotslash : ∀ t, trimmed.data ≠ '/' :: t := by
      intro t hc
      rw [(startsWith1_iff trimmed '/').mpr ⟨t, hc⟩] at hslash
      exact absurd hslash (by simp)
    simp only [buildClean]

/-- C4: a reference that is not already absolute/rooted is cleaned of one
leading `./` and joined after the root prefix and the document directory
segments into one `/`-separated path (plain segments throughout). -/
theorem claim_C4_relative_join (att : Attachment) (relParts : List String)
    (rest : String)
    (hb : segsPlain rest = true)
    (hrp : ∀ p ∈ relParts, segsPlain p = true)
    (habs : isAbsoluteRef (jsTrim att.url) ("/" ++ rest) = false)
    (hclean : segsPlain (specCleanRef (jsTrim att.url)) = true) :
    (normalizeAtt relParts ("/" ++ rest) att).url =
      ("/" ++ rest) ++ "/" ++
        String.intercalate "/" (relParts ++ [specCleanRef (jsTrim att.url)]) := by
  have hslash : startsWithS (jsTrim att.url) "/" = false := by
    simp only [isAbsoluteRef, Bool.or_eq_false_iff] at habs
    exact habs.1.2
  have hhead : (specCleanRef (jsTrim att.url)).data.head? ≠ some '/' :=
    (segsPlain_shape _ hclean).2.1
  have hcl := buildClean_eq_spec (jsTrim att.url) hslash hhead
  have hurl : (normalizeAtt relParts ("/" ++ rest) att).url =
      posixJoin (("/" ++ rest) :: relParts ++
        [specCleanRef (jsTrim att.url)]) := by
    simp only [normalizeAtt, habs]
    rw [if_neg (by simp [habs])]
    rw [hcl]
  rw [hurl]
  set clean := specCleanRef (jsTrim att.url) with hcleandef
  set M : List (List Char) := (relParts ++ [clean]).map String.data with hM
  have hMne : M ≠ [] := by simp [hM]
  have hdata : ("/" ++ rest).data = '/' :: rest.data := by
    rw [String.data_append]
    rfl
  have hMplain : ∀ p ∈ M, (splitCh p).all plainSeg = true := by
    intro p hp
    rcases List.mem_map.mp hp with ⟨q, hq, rfl⟩
    rcases List.mem_append.mp hq with h | h
    · exact hrp q h
    · have : q = clean := by simpa using h
      subst this
      exact hclean
  have hmap : ((("/" ++ rest) :: relParts ++ [clean]).map String.data) =
      ('/' :: rest.data) :: M := by
    simp [hM, hdata]
  have hfilter : ((('/' :: rest.data) :: M).filter (fun l => l ≠ [])) =
      ('/' :: rest.data) :: M := by
    apply List.filter_eq_self.mpr
    intro l hl
    rcases List.mem_cons.mp hl with h | h
    · subst h; simp
    · have := (segsPlain_shape l (hMplain l h)).1
      simpa using this
  have hjoin : posixJoin (("/" ++ rest) :: relParts ++ [clean]) =
      ⟨posixNormalizeCh (joinSegs (('/' :: rest.data) :: M))⟩ := by
    simp only [posixJoin, hmap, hfilter]
    rw [if_neg (by simp)]
  rw [hjoin]
  rw [posixNormalizeCh_abs_plain rest.data M hb hMplain]
  have hRHS : (("/" ++ rest) ++ "/" ++
      String.intercalate "/" (relParts ++ [clean])).data =
      '/' :: joinSegs (rest.data :: M) := by
    rw [String.data_append, String.data_append, hdata]
    rw [strIntercalate_data _ (by simp)]
    rw [joinSegs_cons rest.data M, if_neg hMne]
    rw [hM]
    simp
  apply String.ext
  rw [hRHS]

/-- Witness for C4 at the spec's scenario: `./img/q1.png` in directory
`python` under the root. -/
theorem claim_C4_relative_join_witness :
    ("/" ++ "root" : String) = "/root" ∧
    (normalizeAtt ["python"] ("/" ++ "root")
      ⟨"I", "./img/q1.png", "question"⟩).url = "/root/python/img/q1.png" := by
  constructor
  · decide
  · have h := claim_C4_relative_join ⟨"I", "./img/q1.png", "question"⟩
      ["python"] "root" (by decide) (by decide) (by decide) (by decide)
    rw [h]
    decide

/-- No character of the string is JS whitespace. -/
def noWsStr (s : String) : Bool :=
  s.data.all (fun c => !jsIsWs c)

/-- Dropping a whitespace run from a whitespace-free list is the identity. -/
theorem dropWhile_noWs (l : List Char)
    (h : ∀ c ∈ l, jsIsWs c = false) : l.dropWhile jsIsWs = l := by
  cases l with
  | nil => rfl
  | cons c rest =>
    simp only [List.dropWhile]
    rw [h c (by simp)]

/-- Trimming a whitespace-free string is the identity. -/
theorem jsTrim_noWs (s : String) (h : noWsStr s = true) : jsTrim s = s := by
  have hall : ∀ c ∈ s.data, jsIsWs c = false := by
    intro c hc
    have := List.all_eq_true.mp h c hc
    simpa using this
  have h1 : s.data.dropWhile jsIsWs = s.data := dropWhile_noWs _ hall
  have h2 : (s.data.reverse).dropWhile jsIsWs = s.data.reverse :=
    dropWhile_noWs _ (fun c hc => hall c (List.mem_reverse.mp hc))
  simp only [jsTrim, listTrim, h1, h2, List.reverse_reverse]

/-- Every character of a join comes from a part or is the separator. -/
theorem mem_joinSegs (L : List (List Char)) (c : Char)
    (h : c ∈ joinSegs L) : c = '/' ∨ ∃ s ∈ L, c ∈ s := by
  induction L with
  | nil => simp [joinSegs] at h
  | cons x L ih =>
    rw [joinSegs_cons] at h
    by_cases hL : L = []
    · rw [if_pos hL] at h
      exact Or.inr ⟨x, by simp, h⟩
    · rw [if_neg hL] at h
      rcases List.mem_append.mp h with h1 | h1
      · exact Or.inr ⟨x, by simp, h1⟩
      · rcases List.mem_cons.mp h1 with h2 | h2
        · exact Or.inl h2
        · rcases ih h2 with h3 | ⟨s, hs, hcs⟩
          · exact Or.inl h3
          · exact Or.inr ⟨s, by simp [hs], hcs⟩

/-- Every character of a split segment comes from the original list. -/
theorem mem_splitCh (l : List Char) (seg : List Char) (hseg : seg ∈ splitCh l)
    (c : Char) (hc : c ∈ seg) : c ∈ l := by
  induction l generalizing seg with
  | nil =>
    simp [splitCh] at hseg
    subst hseg
    simp at hc
  | cons d rest ih =>
    simp only [splitCh] at hseg
    rcases hsp : splitCh rest with _ | ⟨s, ss⟩
    · exact absurd hsp (splitCh_ne_nil rest)
    · rw [hsp] at hseg
      have hseg2 : seg ∈ (if d = '/' then [] :: s :: ss
          else (d :: s) :: ss) := hseg
      by_cases hd : d = '/'
      · rw [if_pos hd] at hseg2
        rcases List.mem_cons.mp hseg2 with h1 | h1
        · subst h1; simp at hc
        · exact List.mem_cons_of_mem d (ih seg (by rw [hsp]; exact h1) hc)
      · rw [if_neg hd] at hseg2
        rcases List.mem_cons.mp hseg2 with h1 | h1
        · subst h1
          rcases List.mem_cons.mp hc with h2 | h2
          · simp [h2]
          · exact List.mem_cons_of_mem d
              (ih s (by rw [hsp]; simp) h2)
        · exact List.mem_cons_of_mem d
            (ih seg (by rw [hsp]; simp [h1]) hc)

/-- One normalization step only keeps stack entries or pushes the segment. -/
theorem mem_normStep (allow : Bool) (st : List (List Char))
    (seg y : List Char) (hy : y ∈ normStep allow st seg) :
    y ∈ st ∨ y = seg := by
  have happ : y ∈ st ++ [seg] → y ∈ st ∨ y = seg := by
    intro h
    rcases List.mem_append.mp h with h | h
    · exact Or.inl h
    · exact Or.inr (by simpa using h)
  simp only [normStep] at hy
  by_cases h1 : (decide (seg = []) || decide (seg = ['.'])) = true
  · rw [if_pos h1] at hy
    exact Or.inl hy
  · rw [if_neg h1] at hy
    by_cases h2 : seg = ['.', '.']
    · rw [if_pos h2] at hy
      rcases hlast : st.getLast? with _ | t
      · rw [hlast] at hy
        have hy2 : y ∈ (if allow = true then st ++ [seg] else st) := hy
        split_ifs at hy2
        · exact happ hy2
        · exact Or.inl hy2
      · rw [hlast] at hy
        have hy2 : y ∈ (if t ≠ ['.', '.'] then st.dropLast
            else if allow = true then st ++ [seg] else st) := hy
        split_ifs at hy2
        · exact Or.inl (List.dropLast_subset _ hy2)
        · exact happ hy2
        · exact Or.inl hy2
    · rw [if_neg h2] at hy
      exact happ hy

/-- Every segment surviving the normalization loop came from the stack or
the input. -/
theorem mem_normStack (allow : Bool) (segs : List (List Char))
    (st : List (List Char)) (x : List Char)
    (h : x ∈ normStack allow st segs) :
    x ∈ st ∨ x ∈ segs := by
  induction segs generalizing st with
  | nil => exact Or.inl (by simpa [normStack] using h)
  | cons seg rest ih =>
    simp only [normStack, List.foldl_cons] at h
    rcases ih (normStep allow st seg) h with h1 | h1
    · rcases mem_normStep allow st seg x h1 with h2 | h2
      · exact Or.inl h2
      · exact Or.inr (by simp [h2])
    · exact Or.inr (by simp [h1])

/-- Every character of a normalized path is a separator, a dot, or a
character of the input. -/
theorem mem_posixNormalizeCh (p : List Char) (c : Char)
    (h : c ∈ posixNormalizeCh p) : c = '/' ∨ c = '.' ∨ c ∈ p := by
  by_cases hp : p = []
  · subst hp
    simp [posixNormalizeCh] at h
    simp [h]
  · have hres : ∀ c0, c0 ∈ joinSegs (normStack
        (!decide (p.head? = some '/')) [] (splitCh p)) →
        c0 = '/' ∨ c0 ∈ p := by
      intro c0 hc0
      rcases mem_joinSegs _ _ hc0 with h5 | ⟨s, hs, hcs⟩
      · exact Or.inl h5
      · rcases mem_normStack _ _ _ _ hs with h6 | h6
        · simp at h6
        · exact Or.inr (mem_splitCh p s h6 c0 hcs)
    simp only [posixNormalizeCh, if_neg hp] at h
    split_ifs at h
    · simp at h
      simp [h]
    · simp at h
      rcases h with h | h <;> simp [h]
    · simp at h
      simp [h]
    · rcases List.mem_append.mp h with h | h
      · rcases List.mem_cons.mp h with h | h
        · simp [h]
        · rcases hres c h with h | h <;> simp [h]
      · simp at h
        simp [h]
    · simp only [List.append_nil] at h
      rcases List.mem_cons.mp h with h | h
      · simp [h]
      · rcases hres c h with h | h <;> simp [h]
    · rcases List.mem_append.mp h with h | h
      · rcases hres c h with h | h <;> simp [h]
      · simp at h
        simp [h]
    · simp only [List.append_nil] at h
      rcases hres c h with h | h <;> simp [h]

/-- The cleaned reference is a suffix of the raw reference: the replacements
only drop up to three leading characters. -/
theorem buildClean_cases (t : String) :
    (buildClean t).data = t.data ∨ (buildClean t).data = t.data.drop 1 ∨
    (buildClean t).data = t.data.drop 2 ∨
    (buildClean t).data = t.data.drop 3 := by
  simp only [buildClean]
  split
  · next x heq =>
    split at heq
    · next y hy =>
      right; right; right
      rw [hy]
      rw [heq]
      simp
    · next =>
      right; left
      rw [heq]
      simp
  · next =>
    split
    · next y hy =>
      right; right; left
      rw [hy]
      simp
    · next =>
      left
      rfl

/-- The cleaned reference only contains characters of the raw reference. -/
theorem mem_buildClean (t : String) (c : Char)
    (h : c ∈ (buildClean t).data) : c ∈ t.data := by
  rcases buildClean_cases t with he | he | he | he <;> rw [he] at h
  · exact h
  all_goals exact List.drop_subset _ _ h

/-- Every character of a join result is a separator, a dot, or a character
of some part. -/
theorem mem_posixJoin_data (parts : List String) (c : Char)
    (hc : c ∈ (posixJoin parts).data) :
    c = '/' ∨ c = '.' ∨ ∃ spart ∈ parts, c ∈ spart.data := by
  simp only [posixJoin] at hc
  split_ifs at hc with h1
  · simp at hc
    simp [hc]
  · rcases mem_posixNormalizeCh _ _ hc with h | h | h
    · exact Or.inl h
    · exact Or.inr (Or.inl h)
    · rcases mem_joinSegs _ _ h with h2 | ⟨sL, hsL, hcs⟩
      · exact Or.inl h2
      · rcases List.mem_filter.mp hsL with ⟨hsL2, _⟩
        rcases List.mem_map.mp hsL2 with ⟨spart, hsp, rfl⟩
        exact Or.inr (Or.inr ⟨spart, hsp, hcs⟩)

/-- Normalizing an absolute path yields an absolute path. -/
theorem posixNormalizeCh_abs_head (p : List Char) (hne : p ≠ [])
    (hh : p.head? = some '/') : (posixNormalizeCh p).head? = some '/' := by
  simp only [posixNormalizeCh, if_neg hne, hh]
  split_ifs <;> simp

/-- Joining from an absolute first part yields an absolute path. -/
theorem posixJoin_abs_head (bp : String) (parts : List String)
    (hh : bp.data.head? = some '/') :
    (posixJoin (bp :: parts)).data.head? = some '/' := by
  have hbne : bp.data ≠ [] := by
    intro h
    rw [h] at hh
    simp at hh
  have hcond : decide (bp.data ≠ []) = true := by simp [hbne]
  simp only [posixJoin, List.map_cons, List.filter_cons]
  rw [if_pos hcond, if_neg (by simp)]
  apply posixNormalizeCh_abs_head
  · rw [joinSegs_cons]
    split_ifs
    · exact hbne
    · simp [hbne]
  · rw [joinSegs_cons]
    split_ifs with h2
    · exact hh
    · rcases hd : bp.data with _ | ⟨a, t⟩
      · exact absurd hd hbne
      · rw [hd] at hh
        simp only [List.cons_append, List.head?_cons]
        simpa using hh

/-- An absolute-headed string passes the `/` prefix test. -/
theorem startsWith_slash_of_head (s : String)
    (h : s.data.head? = some '/') : startsWithS s "/" = true := by
  apply (startsWith1_iff s '/').mpr
  cases hd : s.data with
  | nil =>
    rw [hd] at h
    exact absurd h (by simp)
  | cons a t =>
    rw [hd] at h
    simp only [List.head?_cons, Option.some.injEq] at h
    exact ⟨t, by rw [h]⟩

/-- One attachment normalization is idempotent when the resolved root is
absolute and no whitespace is involved. -/
theorem normalizeAtt_idem (rp : List String) (bp : String) (att : Attachment)
    (hb : bp.data.head? = some '/')
    (hwb : noWsStr bp = true)
    (hwr : ∀ p ∈ rp, noWsStr p = true)
    (hwa : noWsStr att.url = true) :
    normalizeAtt rp bp (normalizeAtt rp bp att) = normalizeAtt rp bp att := by
  have htrim : jsTrim att.url = att.url := jsTrim_noWs _ hwa
  by_cases habs : isAbsoluteRef (jsTrim att.url) bp = true
  · have habs' : isAbsoluteRef att.url bp = true := by
      rw [← htrim]
      exact habs
    have h1 : normalizeAtt rp bp att = att := by
      simp only [normalizeAtt, htrim, if_pos habs']
    rw [h1]
    exact h1
  · have h1 : normalizeAtt rp bp att =
        { att with url := posixJoin (bp :: rp ++
          [buildClean (jsTrim att.url)]) } := by
      simp only [normalizeAtt, if_neg habs]
    have hcons : (bp :: rp ++ [buildClean (jsTrim att.url)]) =
        bp :: (rp ++ [buildClean (jsTrim att.url)]) := by
      simp
    have hwu2 : noWsStr (posixJoin (bp :: rp ++
        [buildClean (jsTrim att.url)])) = true := by
      apply List.all_eq_true.mpr
      intro c hc
      simp only [Bool.not_eq_true']
      rcases mem_posixJoin_data _ c hc with h | h | ⟨spart, hsp, hcs⟩
      · subst h; decide
      · subst h; decide
      · rw [hcons] at hsp
        rcases List.mem_cons.mp hsp with h2 | h2
        · subst h2
          simpa using List.all_eq_true.mp hwb c hcs
        · rcases List.mem_append.mp h2 with h3 | h3
          · simpa using List.all_eq_true.mp (hwr spart h3) c hcs
          · have hsp2 : spart = buildClean (jsTrim att.url) := by
              simpa using h3
            subst hsp2
            have hc2 : c ∈ (jsTrim att.url).data :=
              mem_buildClean _ c hcs
            rw [htrim] at hc2
            simpa using List.all_eq_true.mp hwa c hc2
    have htrim2 : jsTrim (posixJoin (bp :: rp ++
        [buildClean (jsTrim att.url)])) = posixJoin (bp :: rp ++
        [buildClean (jsTrim att.url)]) := jsTrim_noWs _ hwu2
    have hstart : startsWithS (posixJoin (bp :: rp ++
        [buildClean (jsTrim att.url)])) "/" = true := by
      apply startsWith_slash_of_head
      rw [hcons]
      exact posixJoin_abs_head bp (rp ++ [buildClean (jsTrim att.url)]) hb
    have habs3 : isAbsoluteRef (jsTrim (posixJoin (bp :: rp ++
        [buildClean (jsTrim att.url)]))) bp = true := by
      rw [htrim2]
      simp only [isAbsoluteRef, hstart]
      simp
    have habs3a : isAbsoluteRef (posixJoin (bp :: rp ++
        [buildClean (jsTrim att.url)])) bp = true := by
      rw [← htrim2]
      exact habs3
    have h2 : normalizeAtt rp bp ({ att with url := posixJoin (bp :: rp ++
        [buildClean (jsTrim att.url)]) }) =
        { att with url := posixJoin (bp :: rp ++
          [buildClean (jsTrim att.url)]) } := by
      simp only [normalizeAtt, htrim2, if_pos habs3a]
    rw [h1, h2]

/-- C3, amended: the consolidator's attachment normalization is idempotent
for any whitespace-free attachment list, directory and absolute resolved
root (with whitespace in play a second pass can still trim a dangling
space that `..`-resolution exposed, as the counterexample shows). -/
theorem claim_C3_amended_idempotent (atts : List Attachment)
    (relDir bp : String)
    (hb : startsWithS bp "/" = true)
    (hwb : noWsStr bp = true)
    (hwd : noWsStr relDir = true)
    (hwa : ∀ a ∈ atts, noWsStr a.url = true) :
    normalizeAttachments (normalizeAttachments atts relDir bp) relDir bp =
      normalizeAttachments atts relDir bp := by
  have hbhead : bp.data.head? = some '/' := by
    rcases (startsWith1_iff bp '/').mp hb with ⟨t, ht⟩
    simp [ht]
  have hwr : ∀ p ∈ relPartsOf relDir, noWsStr p = true := by
    intro p hp
    simp only [relPartsOf] at hp
    split_ifs at hp with h
    · simp at hp
    · rcases List.mem_filter.mp hp with ⟨hp1, _⟩
      rcases List.mem_map.mp hp1 with ⟨seg, hseg, rfl⟩
      apply List.all_eq_true.mpr
      intro c hc
      have hmem := mem_splitCh relDir.data seg hseg c hc
      simpa using List.all_eq_true.mp hwd c hmem
  simp only [normalizeAttachments, List.map_map]
  apply List.map_congr_left
  intro a ha
  simp only [Function.comp_apply]
  exact normalizeAtt_idem _ bp a hbhead hwb hwr (hwa a ha)

/-- C3 fails as stated: over a `..` segment, normalization can expose a
trailing space that only the second pass trims, so normalizing twice is not
always normalizing once. -/
theorem claim_C3_counterexample :
    normalizeAttachments (normalizeAttachments
      [⟨"i", "a /b/..", "question"⟩] "" "/r") "" "/r" ≠
    normalizeAttachments [⟨"i", "a /b/..", "question"⟩] "" "/r" := by
  decide

/-- Witness for the amended C3 at concrete whitespace-free inputs. -/
theorem claim_C3_amended_idempotent_witness :
    normalizeAttachments (normalizeAttachments
      [⟨"i", "./img/a.png", "question"⟩] "python" "/root") "python" "/root" =
    normalizeAttachments [⟨"i", "./img/a.png", "question"⟩] "python"
      "/root" :=
  claim_C3_amended_idempotent [⟨"i", "./img/a.png", "question"⟩] "python"
    "/root" (by decide) (by decide) (by decide) (by decide)

/-- A string is nonempty exactly when its character list is. -/
theorem str_ne_empty_iff (s : String) : s ≠ "" ↔ s.data ≠ [] := by
  constructor
  · intro h hc
    apply h
    cases s with
    | mk d =>
      simp only at hc
      rw [hc]
  · intro h hc
    apply h
    rw [hc]

/-- Joining nonempty segments is nonempty. -/
theorem joinSegs_ne_nil (L : List (List Char)) (hL : L ≠ [])
    (h : ∀ f ∈ L, f ≠ []) : joinSegs L ≠ [] := by
  cases L with
  | nil => exact absurd rfl hL
  | cons x L2 =>
    rw [joinSegs_cons]
    split_ifs
    · exact h x (by simp)
    · simp [h x (by simp)]

/-- The empty segment is a no-op for the normalization loop. -/
theorem normStep_nil (allow : Bool) (st : List (List Char)) :
    normStep allow st [] = st := by
  simp [normStep]

/-- Two paths with the same head, last and normalized segments normalize
identically. -/
theorem posixNormalizeCh_congr (p1 p2 : List Char)
    (h1 : p1 ≠ []) (h2 : p2 ≠ [])
    (hh : p1.head? = p2.head?) (hl : p1.getLast? = p2.getLast?)
    (hs : ∀ a, normStack a [] (splitCh p1) = normStack a [] (splitCh p2)) :
    posixNormalizeCh p1 = posixNormalizeCh p2 := by
  unfold posixNormalizeCh
  rw [if_neg h1, if_neg h2, hh, hl]
  simp only [hs]

/-- An extra leading separator on the final join argument changes nothing
(provided that argument is nonempty and some earlier argument survives). -/
theorem posixJoin_extraSlash (P : List String) (x : List Char) (hx : x ≠ [])
    (hF : ((P.map String.data).filter (fun l => l ≠ [])) ≠ []) :
    posixJoin (P ++ [(⟨'/' :: x⟩ : String)]) =
      posixJoin (P ++ [(⟨x⟩ : String)]) := by
  have hFel : ∀ f ∈ (P.map String.data).filter (fun l => l ≠ []), f ≠ [] := by
    intro f hf
    have := (List.mem_filter.mp hf).2
    simpa using this
  set F := (P.map String.data).filter (fun l => l ≠ []) with hFdef
  have hJ : joinSegs F ≠ [] := joinSegs_ne_nil F hF hFel
  have hne1 : ((P ++ [(⟨'/' :: x⟩ : String)]).map String.data).filter
      (fun l => l ≠ []) = F ++ ['/' :: x] := by
    rw [List.map_append, List.filter_append]
    simp [hFdef]
  have hne2 : ((P ++ [(⟨x⟩ : String)]).map String.data).filter
      (fun l => l ≠ []) = F ++ [x] := by
    rw [List.map_append, List.filter_append]
    simp [hFdef, hx]
  have hj1 : joinSegs (F ++ ['/' :: x]) = joinSegs F ++ '/' :: '/' :: x := by
    rw [joinSegs_append F _ hF (by simp)]
    rfl
  have hj2 : joinSegs (F ++ [x]) = joinSegs F ++ '/' :: x := by
    rw [joinSegs_append F _ hF (by simp)]
    rfl
  simp only [posixJoin, hne1, hne2]
  rw [if_neg (by simp [hF]), if_neg (by simp [hF])]
  congr 1
  rw [hj1, hj2]
  apply posixNormalizeCh_congr
  · simp [hJ]
  · simp [hJ]
  · rw [List.head?_append_of_ne_nil _ hJ, List.head?_append_of_ne_nil _ hJ]
  · have he1 : joinSegs F ++ '/' :: '/' :: x =
        (joinSegs F ++ ['/', '/']) ++ x := by simp
    have he2 : joinSegs F ++ '/' :: x = (joinSegs F ++ ['/']) ++ x := by simp
    rw [he1, he2, List.getLast?_append_of_ne_nil _ hx,
      List.getLast?_append_of_ne_nil _ hx]
  · intro a
    have hs1 : splitCh (joinSegs F ++ '/' :: '/' :: x) =
        splitCh (joinSegs F) ++ [] :: splitCh x := by
      rw [splitCh_append]
      congr 1
      have : ('/' :: x) = [] ++ '/' :: x := rfl
      rw [this, splitCh_append]
      rfl
    have hs2 : splitCh (joinSegs F ++ '/' :: x) =
        splitCh (joinSegs F) ++ splitCh x := splitCh_append _ _
    rw [hs1, hs2]
    simp only [normStack, List.foldl_append, List.foldl_cons]
    rw [normStep_nil]

/-- For a trimmed reference with no leading slash, the seeder's clean-up
equals the consolidator's, except on a reference starting with `.//`,
where the seeder keeps one more leading slash. -/
theorem cleans_rel (trimmed : String)
    (hslash : ∀ t : List Char, trimmed.data ≠ '/' :: t) :
    seederClean trimmed = buildClean trimmed ∨
      ((seederClean trimmed).data = '/' :: (buildClean trimmed).data ∧
        (trimmed ≠ ".//" → (buildClean trimmed).data ≠ [])) := by
  obtain ⟨d⟩ := trimmed
  rcases d with _ | ⟨c1, d1⟩
  · left; rfl
  · have h1 : c1 ≠ '/' := by
      intro hc
      exact hslash d1 (by simp [hc])
    rcases d1 with _ | ⟨c2, d2⟩
    · left
      simp [seederClean, buildClean, h1]
    · by_cases hc1 : c1 = '.'
      · by_cases hc2 : c2 = '/'
        · subst hc1; subst hc2
          rcases d2 with _ | ⟨c3, d3⟩
          · left
            simp [seederClean, buildClean]
          · by_cases hc3 : c3 = '/'
            · subst hc3
              right
              constructor
              · simp [seederClean, buildClean]
              · intro hne
                rcases d3 with _ | ⟨c4, d4⟩
                · exact absurd (by decide) hne
                · simp [buildClean]
            · left
              simp [seederClean, buildClean, hc3]
        · left
          simp [seederClean, buildClean, hc2, h1]
      · left
        simp [seederClean, buildClean, hc1, h1]

/-- C10 (amended): for a nonempty resolved root and an attachment whose
trimmed url is nonempty and different from the exact string `.//`, the
consolidator's normalizer and the seeder's normalizer agree on the whole
attachment record. Unrestricted equivalence fails on whitespace-only urls
(which only the seeder leaves untouched) and on `.//`. -/
theorem claim_C10_amended_normalizer_equiv (relParts : List String)
    (bp : String) (att : Attachment) (hbp : bp ≠ "")
    (ht1 : jsTrim att.url ≠ "") (ht2 : jsTrim att.url ≠ ".//") :
    normalizeAtt relParts bp att = seederNormalizeAtt relParts bp att := by
  simp only [normalizeAtt, seederNormalizeAtt]
  rw [if_neg ht1]
  by_cases habs : isAbsoluteRef (jsTrim att.url) bp = true
  · rw [if_pos habs, if_pos habs]
  · have habs0 : isAbsoluteRef (jsTrim att.url) bp = false := by
      simpa using habs
    rw [if_neg habs, if_neg habs]
    have hsl0 : startsWithS (jsTrim att.url) "/" = false := by
      simp only [isAbsoluteRef, Bool.or_eq_false_iff] at habs0
      exact habs0.1.2
    have hslash : ∀ t : List Char, (jsTrim att.url).data ≠ '/' :: t := by
      intro t hc
      rw [(startsWith1_iff (jsTrim att.url) '/').mpr ⟨t, hc⟩] at hsl0
      exact absurd hsl0 (by simp)
    rcases cleans_rel (jsTrim att.url) hslash with heq | ⟨hdat, hne⟩
    · rw [heq]
    · have hx : (buildClean (jsTrim att.url)).data ≠ [] := hne ht2
      have hbpd : bp.data ≠ [] := (str_ne_empty_iff bp).mp hbp
      have hF : (((bp :: relParts).map String.data).filter
          (fun l => l ≠ [])) ≠ [] := by
        simp only [List.map_cons, List.filter_cons]
        rw [if_pos (by simpa using hbpd)]
        simp
      have hsc : seederClean (jsTrim att.url) =
          ⟨'/' :: (buildClean (jsTrim att.url)).data⟩ := by
        rw [← strMk_data (seederClean (jsTrim att.url)), hdat]
      have hjoin := posixJoin_extraSlash (bp :: relParts)
        (buildClean (jsTrim att.url)).data hx hF
      rw [strMk_data] at hjoin
      rw [hsc, hjoin]

/-- Witness for the amended C10 at a concrete relative reference. -/
theorem claim_C10_amended_normalizer_equiv_witness :
    normalizeAtt ["d"] "/r" ⟨"i", "./img/a.png", "question"⟩ =
      seederNormalizeAtt ["d"] "/r" ⟨"i", "./img/a.png", "question"⟩ :=
  claim_C10_amended_normalizer_equiv ["d"] "/r"
    ⟨"i", "./img/a.png", "question"⟩ (by decide) (by decide) (by decide)

/-- The two normalizers disagree on a whitespace-only url (the consolidator
rewrites it to the directory path, the seeder keeps it) and on the url
`.//` (the seeder emits one extra trailing slash). -/
theorem claim_C10_counterexample :
    normalizeAtt ["d"] "/r" ⟨"i", "  ", "question"⟩ ≠
      seederNormalizeAtt ["d"] "/r" ⟨"i", "  ", "question"⟩ ∧
    normalizeAtt ["d"] "/r" ⟨"i", ".//", "question"⟩ ≠
      seederNormalizeAtt ["d"] "/r" ⟨"i", ".//", "question"⟩ := by
  decide

/-- Sorting a two-entry en/fr group places the en entry first, whichever
order the directory walk produced. -/
theorem sortByLang_pair (eA eB : FileEntry)
    (hA : eA.language = "en") (hB : eB.language = "fr") :
    sortByLang [eA, eB] = [eA, eB] ∧ sortByLang [eB, eA] = [eA, eB] := by
  have h1 : leStr eA.language eB.language = true := by
    rw [hA, hB]; decide
  have h2 : leStr eB.language eA.language = false := by
    rw [hB, hA]; decide
  constructor
  · simp [sortByLang, insertByLang, h1]
  · simp [sortByLang, insertByLang, h2]

/-- C5: a directory group of one `en` and one `fr` document (read in either
order) consolidates into one aggregate with exactly two sets ordered `en`
then `fr`, `meta.languages = ["en","fr"]`, the aggregate id, slug and
creator taken from the `en` document, and every question of every set
stamped with its own set's id and the aggregate's id. -/
theorem claim_C5_group_consolidation (fA fB : String × QuizPayload)
    (dir relDir basePre uuid nowIso : String) (payload : AggPayload)
    (hA : inferLanguage fA.2.meta.language fA.1 = "en")
    (hB : inferLanguage fB.2.meta.language fB.1 = "fr")
    (hid : fA.2.quizz.id ≠ "")
    (hslug : slugify fA.2.quizz.title ≠ "")
    (hcb : fA.2.quizz.createdById ≠ "")
    (files : List (String × QuizPayload))
    (hfiles : files = [fA, fB] ∨ files = [fB, fA])
    (hp : payload =
      buildCombinedPayload files dir relDir basePre uuid nowIso) :
    payload.quizz.sets.map QuizSet.language = ["en", "fr"] ∧
    payload.meta.languages = ["en", "fr"] ∧
    payload.quizz.id = fA.2.quizz.id ∧
    payload.quizz.slug = slugify fA.2.quizz.title ∧
    payload.quizz.createdById = fA.2.quizz.createdById ∧
    ∀ s ∈ payload.quizz.sets,
      s.id = payload.quizz.id ++ "-" ++ s.language ∧
      ∀ q ∈ s.questions, q.setId = s.id ∧ q.quizzId = payload.quizz.id := by
  subst hp
  have hsort := sortByLang_pair ⟨fA.1, "en", fA.2⟩ ⟨fB.1, "fr", fB.2⟩ rfl rfl
  have hsorted : sortByLang (files.map (fun fp =>
      FileEntry.mk fp.1 (inferLanguage fp.2.meta.language fp.1) fp.2)) =
      [⟨fA.1, "en", fA.2⟩, ⟨fB.1, "fr", fB.2⟩] := by
    rcases hfiles with rfl | rfl
    · simp only [List.map_cons, List.map_nil, hA, hB]
      exact hsort.1
    · simp only [List.map_cons, List.map_nil, hA, hB]
      exact hsort.2
  have hbase : pickBase
      [(⟨fA.1, "en", fA.2⟩ : FileEntry), ⟨fB.1, "fr", fB.2⟩] =
      some ⟨fA.1, "en", fA.2⟩ := by
    simp [pickBase, List.find?]
  simp only [buildCombinedPayload, hsorted, hbase]
  rw [if_neg hid, if_neg hslug, if_neg hcb]
  refine ⟨by simp, by simp, rfl, rfl, rfl, ?_⟩
  intro s hs
  simp only [List.map_cons, List.map_nil, List.mem_cons,
    List.not_mem_nil, or_false] at hs
  rcases hs with rfl | rfl
  · refine ⟨rfl, ?_⟩
    intro q hq
    simp only at hq
    rcases List.mem_map.mp hq with ⟨q0, _, rfl⟩
    exact ⟨rfl, rfl⟩
  · refine ⟨rfl, ?_⟩
    intro q hq
    simp only at hq
    rcases List.mem_map.mp hq with ⟨q0, _, rfl⟩
    exact ⟨rfl, rfl⟩

/-- Witness for C5 at a concrete two-file group. -/
theorem claim_C5_group_consolidation_witness :
    let pay := buildCombinedPayload
      [("q/quiz-en.json",
        ⟨⟨"qid", "Python", "d", "c", []⟩, ⟨"s", "en", "t", []⟩⟩),
       ("q/quiz-fr.json",
        ⟨⟨"qid2", "Python", "d", "c2", []⟩, ⟨"s2", "fr", "t", []⟩⟩)]
      "dir" "rel" "/r" "u" "now"
    pay.quizz.sets.map QuizSet.language = ["en", "fr"] ∧
    pay.meta.languages = ["en", "fr"] ∧
    pay.quizz.id = "qid" ∧
    pay.quizz.slug = slugify "Python" ∧
    pay.quizz.createdById = "c" ∧
    ∀ s ∈ pay.quizz.sets,
      s.id = pay.quizz.id ++ "-" ++ s.language ∧
      ∀ q ∈ s.questions, q.setId = s.id ∧ q.quizzId = pay.quizz.id :=
  claim_C5_group_consolidation
    ("q/quiz-en.json",
      ⟨⟨"qid", "Python", "d", "c", []⟩, ⟨"s", "en", "t", []⟩⟩)
    ("q/quiz-fr.json",
      ⟨⟨"qid2", "Python", "d", "c2", []⟩, ⟨"s2", "fr", "t", []⟩⟩)
    "dir" "rel" "/r" "u" "now" _ (by decide) (by decide) (by decide)
    (by decide) (by decide) _ (Or.inl rfl) rfl
